import Mathlib

/-!
Shallow embedding of the `dag_rte` graph engine.

The authoritative engine source is the current `dag` package
(src/unnamed/part_003, whose data model is src/unnamed/part_004) together
with the HTTP handler layer (src/handlers/handlers.go) and the
checkpoint-aware repository (src/unnamed/part_005).  The persistent store is
modelled as an association list keyed by record id: `PutNode` upserts under
the key `node.ID`, `GetNode` looks the key up, `GetAllNodes` enumerates the
stored records.  Machine integers (`int`, `int64`) are modelled as `Int`;
the weights involved are small counters and no claim depends on wraparound.
Wall-clock reads (`time.Now`) are passed in as explicit `Int` arguments.

Unbounded recursions of the Go code (the descendant-weight recursion, the
walk-to-tip loop, the DFS helpers) are rendered with an explicit fuel
argument; where the Go recursion can genuinely fail to terminate the fuel
exhaustion is surfaced as an explicit divergence outcome (`none`, or the
`OpOutcome.hang` constructor), because in Go the call would never return.
-/

namespace DagRte

/-- Record of the approval graph: `models.Node` of src/unnamed/part_004. -/
structure Node where
  id : String
  parents : List String
  weight : Int
  cumulativeWeight : Int
  createdAt : Int
  deriving DecidableEq, Repr

/-- The error outcomes surfaced by the engine operations of
src/unnamed/part_003 (each is a distinct `errors.New` message there). -/
inductive DagError where
  | alreadyExists
  | selfReference
  | cycleDetected
  | parentNotFound (pid : String)
  | noNodes
  deriving DecidableEq, Repr

/-- `NodeRepository.GetNode`: lookup of the record stored under key `i`. -/
def getNode (s : List Node) (i : String) : Option Node :=
  s.find? (fun n => n.id == i)

/-- `NodeRepository.PutNode`: upsert of `n` under the key `n.id`. -/
def putNode (s : List Node) (n : Node) : List Node :=
  if s.any (fun m => m.id == n.id) then
    s.map (fun m => if m.id == n.id then n else m)
  else
    s ++ [n]

/-- The `children` adjacency map built by the engine before each aggregate
pass: for every stored record `n` and every occurrence of `pid` in
`n.parents`, one entry `n.id` is appended to `children[pid]`
(src/unnamed/part_003, lines 98-105).  Multiplicity is kept, matching the
repeated `append` of the Go loop. -/
def childrenOf (ns : List Node) (pid : String) : List String :=
  ns.flatMap (fun n => (n.parents.filter (fun p => p == pid)).map (fun _ => n.id))

/-- The `parents` adjacency map built alongside `childrenOf`:
`parents[n.ID]` collects the parents lists of the stored records with id
`i` (src/unnamed/part_003, lines 98-105). -/
def parentsOf (ns : List Node) (i : String) : List String :=
  ns.flatMap (fun n => if n.id == i then n.parents else [])

/-- The recursive descendant-weight sum shared by `updateCumulativeWeight`,
`calculateCumulativeWeight` and the handler validation routine: for each
entry of `children[nid]`, look the child up (skipping a missing child) and
add its weight plus its own recursive sum.  `look` is the record lookup the
respective call site uses (`repo.GetNode` or the `nodesByID` map).  The Go
recursion carries no visited set, so it fails to terminate whenever a cycle
of the `children` relation is reachable; fuel exhaustion therefore yields
`none`, meaning the Go call never returns. -/
def descWeightD (look : String → Option Node) (ch : String → List String) (fuel : Nat) :
    String → Option Int :=
  Nat.rec (fun _ => none)
    (fun _ ih nid =>
      (ch nid).foldl
        (fun acc cid =>
          acc.bind (fun a =>
            match look cid with
            | none => some a
            | some c => (ih cid).map (fun d => a + c.weight + d)))
        (some 0))
    fuel

/-- The step function of the descendant-weight fold of `descWeightD`,
named for reuse in the lemmas below. -/
def descStep (look : String → Option Node) (F : String → Option Int)
    (acc : Option Int) (cid : String) : Option Int :=
  acc.bind (fun a =>
    match look cid with
    | none => some a
    | some c => (F cid).map (fun d => a + c.weight + d))

/-- Shared visited/recursion-stack state of the cycle-check DFS
(`checkForCircularReferences`, src/unnamed/part_003 lines 141-188). -/
structure CycState where
  visited : List String
  recStack : List String
  deriving DecidableEq, Repr

/-- A fold that threads the DFS state and stops at the first `true`,
mirroring the early `return true` of the nested Go loops. -/
def cycFold (f : α → CycState → Bool × CycState) : List α → CycState → Bool × CycState
  | [], st => (false, st)
  | a :: rest, st =>
      match f a st with
      | (true, st1) => (true, st1)
      | (false, st1) => cycFold f rest st1

/-- The recursive closure `hasCycle` of `checkForCircularReferences`.  The
visited set makes the recursion depth at most the number of distinct ids
(stored ids plus declared parent ids) plus one, so the fuel passed by
`checkForCircularReferences` below is never exhausted; the fuel-0 value is
arbitrary. -/
def hasCycleF (allNodes : List Node) (parentIDs : List String) (fuel : Nat) :
    String → CycState → Bool × CycState :=
  Nat.rec (fun _ st => (true, st))
    (fun _ ih cur st =>
      if st.recStack.contains cur then (true, st)
      else if st.visited.contains cur then (false, st)
      else
        let st1 : CycState := ⟨cur :: st.visited, cur :: st.recStack⟩
        let r :=
          cycFold
            (fun pid st2 =>
              if pid == cur then
                cycFold
                  (fun en st3 =>
                    cycFold
                      (fun ep st4 => if ep == cur then ih en.id st4 else (false, st4))
                      en.parents st3)
                  allNodes st2
              else (false, st2))
            parentIDs st1
        (r.1, ⟨r.2.visited, r.2.recStack.erase cur⟩))
    fuel

/-- Fuel that dominates the DFS depth of `hasCycleF` (every frame that
recurses adds a fresh id, drawn from the stored ids or `parentIDs`, to the
visited set). -/
def cycleFuel (allNodes : List Node) (parentIDs : List String) : Nat :=
  allNodes.length + parentIDs.length + 2

/-- `checkForCircularReferences` (src/unnamed/part_003, lines 141-188).
The id of the candidate record is ignored by the source (its first
parameter is `_`), so it is not a parameter here either.  Returns `true`
when the Go function returns the circular-reference error. -/
def checkForCircularReferences (s : List Node) (parentIDs : List String) : Bool :=
  (cycFold (fun pid st => hasCycleF s parentIDs (cycleFuel s parentIDs) pid st)
    parentIDs ⟨[], []⟩).1

/-- `markDependenciesAffected` (src/unnamed/part_003, lines 191-202): DFS
through the `parents` map accumulating the affected set.  The accumulator
doubles as the visited set, exactly as the Go `affected` map does, so the
recursion depth is bounded by the number of distinct ids reachable; the
fuel passed by `propagateWeights` below is sufficient for that. -/
def markAff (pm : String → List String) (fuel : Nat) : String → List String → List String :=
  Nat.rec (fun _ aff => aff)
    (fun _ ih nid aff =>
      if aff.contains nid then aff
      else (pm nid).foldl (fun a p => ih p a) (nid :: aff))
    fuel

/-- First phase of `propagateWeights` (src/unnamed/part_003, lines 107-121):
each declared parent is looked up in the current store and rewritten with
weight incremented by one; a missing parent is logged and skipped. -/
def incrementParents (s : List Node) (parentIDs : List String) : List Node :=
  parentIDs.foldl
    (fun acc pid =>
      match getNode acc pid with
      | none => acc
      | some p => putNode acc { p with weight := p.weight + 1 })
    s

/-- `updateCumulativeWeight` (src/unnamed/part_003, lines 205-234): look the
node up (a missing node is logged by the caller and skipped), recompute its
cumulative weight as its own weight plus the recursive descendant sum, and
store the updated record.  `none` marks the case in which the descendant
recursion never terminates in Go. -/
def updateCumulative (ch : String → List String) (acc : List Node) (nid : String) :
    Option (List Node) :=
  match getNode acc nid with
  | none => some acc
  | some n =>
      match descWeightD (getNode acc) ch (acc.length + 1) nid with
      | none => none
      | some d => some (putNode acc { n with cumulativeWeight := n.weight + d })

/-- The recomputation loop of `propagateWeights` (lines 129-135) over the
affected ids.  The Go loop iterates a map in unspecified order; the
individual recomputations read only weights and parents and write only
cumulative weights, so the resulting store does not depend on the order,
and the deterministic order produced by `markAff` is used.  The Boolean is
`false` when some recomputation diverges (the Go call then never returns,
with the previously written updates already persisted). -/
def recomputeAll (ch : String → List String) : List String → List Node → List Node × Bool
  | [], acc => (acc, true)
  | nid :: rest, acc =>
      match updateCumulative ch acc nid with
      | none => (acc, false)
      | some acc1 => recomputeAll ch rest acc1

/-- Fuel that dominates the DFS depth of `markAff`: every id it ever visits
occurs in `parentIDs` or in the parents list of some stored record. -/
def affFuel (s : List Node) (parentIDs : List String) : Nat :=
  (parentIDs ++ s.flatMap (fun n => n.parents)).length + 1

/-- `propagateWeights` (src/unnamed/part_003, lines 86-138), called after
the new record has been persisted: build the adjacency maps, increment the
direct parents, mark all ancestors of the incremented parents as affected,
and recompute their cumulative weights. -/
def propagateWeights (s : List Node) (parentIDs : List String) : List Node × Bool :=
  if parentIDs.isEmpty then (s, true)
  else
    let ch := childrenOf s
    let pm := parentsOf s
    let s2 := incrementParents s parentIDs
    let affected := parentIDs.foldl (fun aff pid => markAff pm (affFuel s parentIDs) pid aff) []
    recomputeAll ch affected s2

/-- Outcome of a mutating engine operation.  Every constructor carries the
store contents after the call: validation errors perform no writes, and
`hang` is the case in which weight propagation diverges after the record
was already durably persisted (the Go call never returns; the store holds
the writes performed up to that point). -/
inductive OpOutcome where
  | ok (s : List Node)
  | err (e : DagError) (s : List Node)
  | hang (s : List Node)
  deriving DecidableEq, Repr

/-- The store contents after an operation, for any outcome. -/
def OpOutcome.post : OpOutcome → List Node
  | .ok s => s
  | .err _ s => s
  | .hang s => s

/-- The store of a successful outcome. -/
def OpOutcome.okState : OpOutcome → Option (List Node)
  | .ok s => some s
  | _ => none

def OpOutcome.isOk : OpOutcome → Bool
  | .ok _ => true
  | _ => false

def OpOutcome.isHang : OpOutcome → Bool
  | .hang _ => true
  | _ => false

def OpOutcome.isCycleErr : OpOutcome → Bool
  | .err .cycleDetected _ => true
  | _ => false

def OpOutcome.isParentNotFoundOrCycleErr : OpOutcome → Bool
  | .err (.parentNotFound _) _ => true
  | .err .cycleDetected _ => true
  | _ => false

/-- `DAG.AddNode` (src/unnamed/part_003, lines 28-41): reject an id that is
already stored, otherwise persist the candidate with weight and cumulative
weight reset to 0 and the creation time stamped.  The candidate parents
list is stored as given (the source does not clear it). -/
def addNode (s : List Node) (node : Node) (now : Int) : OpOutcome :=
  match getNode s node.id with
  | some _ => .err .alreadyExists s
  | none => .ok (putNode s { node with weight := 0, cumulativeWeight := 0, createdAt := now })

/-- `DAG.ApproveNode` (src/unnamed/part_003, lines 44-83): reject a
self-reference, then run the circular-reference check, then require every
declared parent to exist (reporting the first missing one); on success
persist the candidate with weight 0 (its cumulative-weight field is kept
as supplied) and propagate weights.  A propagation divergence yields
`hang`: the record is already persisted but the call never returns. -/
def approveNode (s : List Node) (node : Node) (now : Int) : OpOutcome :=
  if node.parents.any (fun pid => pid == node.id) then .err .selfReference s
  else if checkForCircularReferences s node.parents then .err .cycleDetected s
  else
    match node.parents.find? (fun pid => (getNode s pid).isNone) with
    | some pid => .err (.parentNotFound pid) s
    | none =>
        match propagateWeights (putNode s { node with weight := 0, createdAt := now })
            node.parents with
        | (s2, true) => .ok s2
        | (s2, false) => .hang s2

/-! ### Graph-shape predicates over the embedded store -/

/-- A nonempty path of the derived child adjacency: one or more steps of
the relation "`b` is listed in `ch a`". -/
inductive ChPath (ch : String → List String) : String → String → Prop
  | single {a b : String} : b ∈ ch a → ChPath ch a b
  | cons {a b c : String} : b ∈ ch a → ChPath ch b c → ChPath ch a c

/-- The stored approval graph is acyclic: no nonempty child path returns to
its starting id.  (The parent relation and the child relation are inverse
to each other, so this is equivalent to acyclicity of the parent edges.) -/
def Acyclic (ns : List Node) : Prop :=
  ∀ x : String, ¬ ChPath (childrenOf ns) x x

/-- Every chain of child edges from `x` has length at most `k`: the
termination measure for the descendant-weight recursions. -/
inductive DepthLe (ch : String → List String) : String → Nat → Prop
  | step {x : String} {k : Nat} : (∀ y ∈ ch x, DepthLe ch y k) → DepthLe ch x (k + 1)

/-- Reflexive-transitive closure of the derived parent adjacency (the
ancestor relation that `markDependenciesAffected` traverses). -/
inductive PmReach (pm : String → List String) : String → String → Prop
  | refl (x : String) : PmReach pm x x
  | tail {x y p : String} : PmReach pm x y → p ∈ pm y → PmReach pm x p

/-- `aff` is closed under the parent map except at the pending ids whose
exploration is still on the DFS stack (invariant of
`markDependenciesAffected`). -/
def ClosedMod (pm : String → List String) (pend : Finset String) (aff : List String) : Prop :=
  ∀ a ∈ aff, a ∉ pend → ∀ p ∈ pm a, p ∈ aff

/-- Decidable acyclicity certificate: a ranking that strictly decreases
from every parent to each of its children. -/
def rankedB (ns : List Node) (rk : String → Nat) : Bool :=
  ns.all (fun n => n.parents.all (fun p => rk n.id < rk p))

/-- Uniqueness invariant: stored record ids are pairwise distinct. -/
def NodupIds (s : List Node) : Prop :=
  (s.map (fun n => n.id)).Nodup

/-- Referential invariant of the spec: every stored parent reference
resolves to a stored record. -/
def ParentsClosed (s : List Node) : Prop :=
  ∀ n ∈ s, ∀ p ∈ n.parents, (getNode s p).isSome

/-- The cumulative-weight bookkeeping the engine actually maintains: every
stored record carries its own weight plus the recursive descendant sum
computed by `updateCumulativeWeight` over the current store (fuel
`s.length + 1` is sufficient for every acyclic store). -/
def cumInvB (s : List Node) : Bool :=
  s.all (fun r =>
    match descWeightD (getNode s) (childrenOf s) (s.length + 1) r.id with
    | some d => r.cumulativeWeight == r.weight + d
    | none => false)

/-- Bounded reachability along child edges (at most `fuel` steps),
used to enumerate the descendants named by the spec formula. -/
def reachableWithin (ch : String → List String) (fuel : Nat) : String → String → Bool :=
  Nat.rec (fun a b => a == b)
    (fun _ ih a b => a == b || (ch a).any (fun c => ih c b))
    fuel

/-- Formalisation of the spec sentence, for comparison with the stored
values: the sum of `weight(d)` over all *distinct* stored descendants `d`
reachable from `x` via child edges (each descendant counted once, however
many paths lead to it).  This follows the words of the specification, not
the source, which instead accumulates the weights once per path. -/
def specDescendantSum (s : List Node) (x : String) : Int :=
  ((s.filter (fun n => !(n.id == x) && reachableWithin (childrenOf s) s.length x n.id)).map
    (fun n => n.weight)).sum

/-- The spec-side cumulative-weight invariant built from
`specDescendantSum`. -/
def specCumInvB (s : List Node) : Bool :=
  s.all (fun r => r.cumulativeWeight == r.weight + specDescendantSum s r.id)

/-! ### Tip selection (`TipSelectionMCMC`, src/unnamed/part_003 lines 283-404)

The walk consumes randomness from `rand.Intn` and compares `rand.Float64`
against `math.Exp(alpha * Δ)`.  Randomness is modelled as an oracle: each
`Intn n` draw is an arbitrary natural taken modulo `n` (matching the
codomain of `Intn`), and the floating-point acceptance comparison — the
only place `alpha` and the computed cumulative-weight values are used — is
modelled as an oracle Boolean per step.  No claim depends on the numeric
value of the acceptance probability, only on which branches execute and on
termination, both of which the oracle ranges over completely. -/

/-- Randomness consumed by one iteration of the MCMC loop. -/
structure StepRand where
  propose : Nat
  accept : Bool
  parentPick : Nat
  childPick : Nat
  walkPicks : Nat → Nat

/-- Randomness consumed by one `TipSelectionMCMC` call. -/
structure WalkRand where
  initPick : Nat
  fallbackPick : Nat
  step : Nat → StepRand

/-- The `nodesByID` map: later entries of the slice overwrite earlier ones,
as in the Go map-building loop. -/
def mapById (ns : List Node) (i : String) : Option Node :=
  ns.foldl (fun acc n => if n.id == i then some n else acc) none

/-- `calculateCumulativeWeight` (lines 362-385): 0 for an unknown id,
otherwise the direct weight plus the recursive descendant sum over the
`children` map (the inner recursion is `descWeightD` with the `nodesByID`
lookup).  `none` when the recursion does not terminate in Go. -/
def calcCumD (look : String → Option Node) (ch : String → List String) (fuel : Nat)
    (nid : String) : Option Int :=
  match look nid with
  | none => some 0
  | some n => (descWeightD look ch fuel nid).map (fun d => n.weight + d)

/-- `walkToTip` (lines 388-404): follow a uniformly chosen child edge until
an id with no children is reached; the inner `some none` is the Go `nil`
result (id not present in `nodesByID`), the outer `none` is divergence of
the unbounded loop. -/
def walkToTipD (look : String → Option Node) (ch : String → List String) (fuel : Nat) :
    String → (Nat → Nat) → Option (Option Node) :=
  Nat.rec (fun _ _ => none)
    (fun _ ih cur picks =>
      match ch cur with
      | [] => some (look cur)
      | c :: cs =>
          ih ((c :: cs).get ⟨picks 0 % (c :: cs).length, Nat.mod_lt _ (Nat.succ_pos _)⟩)
            (fun k => picks (k + 1)))
    fuel

/-- The uniformly proposed tip of one MCMC iteration (line 329). -/
def proposedTip (tips : List Node) (htips : tips ≠ []) (sr : StepRand) : Node :=
  tips.get ⟨sr.propose % tips.length, Nat.mod_lt _ (List.length_pos.mpr htips)⟩

/-- Innermost part of the step-100 perturbation (lines 346-353): check the
chosen child exists, walk from it to a tip, and adopt that tip unless the
walk came back `nil`. -/
def mcmcWalkChild (look : String → Option Node) (ch : String → List String)
    (fuel : Nat) (sr : StepRand) (cur1 : Node) (childID : String) : Option Node :=
  match look childID with
  | none => some cur1
  | some _ =>
      match walkToTipD look ch fuel childID sr.walkPicks with
      | none => none
      | some none => some cur1
      | some (some tip) => some tip

/-- Middle part of the perturbation (lines 343-354): check the chosen
parent exists and has children, then pick a uniformly random child. -/
def mcmcDescend (look : String → Option Node) (ch : String → List String)
    (fuel : Nat) (sr : StepRand) (cur1 : Node) (parentID : String) : Option Node :=
  match look parentID with
  | none => some cur1
  | some _ =>
      match ch parentID with
      | [] => some cur1
      | c :: cs =>
          mcmcWalkChild look ch fuel sr cur1
            ((c :: cs).get ⟨sr.childPick % (c :: cs).length, Nat.mod_lt _ (Nat.succ_pos _)⟩)

/-- The step-100 structural perturbation (lines 340-355): walk to a
uniformly random parent of the current candidate (when it has one) and
descend from it. -/
def mcmcPerturb (look : String → Option Node) (ch pm : String → List String)
    (fuel : Nat) (sr : StepRand) (cur1 : Node) : Option Node :=
  match pm cur1.id with
  | [] => some cur1
  | p :: ps =>
      mcmcDescend look ch fuel sr cur1
        ((p :: ps).get ⟨sr.parentPick % (p :: ps).length, Nat.mod_lt _ (Nat.succ_pos _)⟩)

/-- One iteration of the MCMC loop (lines 326-356): evaluate the cumulative
weights of the current and the proposed tip (their values feed only the
acceptance probability, whose comparison outcome is the oracle Boolean
`sr.accept`), accept or keep, and every 100 steps perturb.  `none`
propagates divergence of the weight recursion or of `walkToTip`. -/
def mcmcStep (tips : List Node) (look : String → Option Node)
    (ch pm : String → List String) (htips : tips ≠ []) (fuel : Nat)
    (i : Nat) (sr : StepRand) (cur : Node) : Option Node :=
  (calcCumD look ch fuel cur.id).bind (fun _ =>
    (calcCumD look ch fuel (proposedTip tips htips sr).id).bind (fun _ =>
      if i % 100 == 0 then
        mcmcPerturb look ch pm fuel sr (if sr.accept then proposedTip tips htips sr else cur)
      else some (if sr.accept then proposedTip tips htips sr else cur)))

/-- The step loop `for step := 0; step < maxSteps; step++`: the counter and
the remaining budget are threaded explicitly; the loop has no early exit
and returns the current candidate when the budget is exhausted. -/
def mcmcWalk (step : Nat → Node → Option Node) : Nat → Nat → Node → Option Node
  | _, 0, cur => some cur
  | i, rem + 1, cur =>
      match step i cur with
      | none => none
      | some nxt => mcmcWalk step (i + 1) rem nxt

/-- The tip set (lines 307-312): the stored records no stored record lists
as a parent. -/
def tipsOf (s : List Node) : List Node :=
  s.filter (fun n => (childrenOf s n.id).isEmpty)

/-- `TipSelectionMCMC` (lines 284-359): fail with the no-nodes error on an
empty store; with no tips, return a uniformly random stored record; else
start from a uniformly random tip and run the walk for the full step
budget.  The adjacency maps and the tip list are pure functions of the
snapshot, computed once in Go and referenced directly here.  `none` is
divergence of the walk, never reached on acyclic stores. -/
def tipSelectionMCMC (s : List Node) (maxSteps : Nat) (r : WalkRand) :
    Option (Except DagError Node) :=
  if hn : s = [] then some (.error .noNodes)
  else if ht : tipsOf s = [] then
    some (.ok (s.get ⟨r.fallbackPick % s.length, Nat.mod_lt _ (List.length_pos.mpr hn)⟩))
  else
    (mcmcWalk
      (fun i cur =>
        mcmcStep (tipsOf s) (mapById s) (childrenOf s) (parentsOf s) ht (s.length + 1) i
          (r.step i) cur)
      0 maxSteps
      ((tipsOf s).get ⟨r.initPick % (tipsOf s).length,
        Nat.mod_lt _ (List.length_pos.mpr ht)⟩)).map Except.ok

/-- Whether a tip-selection outcome is a success. -/
def exceptIsOk : Except DagError Node → Bool
  | .ok _ => true
  | .error _ => false

/-- `TipSelection` (lines 277-281): the MCMC walk with the default step
budget of 10000 (the default bias strength 0.01 only enters the acceptance
probability, which the randomness oracle ranges over). -/
def tipSelection (s : List Node) (r : WalkRand) : Option (Except DagError Node) :=
  tipSelectionMCMC s 10000 r

/-! ### Consistency validation (`ValidateDAGConsistency`,
src/handlers/handlers.go lines 174-260) -/

/-- One entry of the `inconsistencies` array of the validation report. -/
structure Inconsistency where
  nodeId : String
  expected : Int
  actual : Int
  difference : Int
  deriving DecidableEq, Repr

/-- The validation report.  `validationTime` and `duration` model the two
wall-clock-derived fields (`time.Now().Format(...)` and
`time.Since(startTime).String()`); `consistencyPercentage` models the
float64 percentage as a rational computed by the same formula. -/
structure ConsistencyReport where
  validationTime : Int
  totalNodes : Nat
  validNodes : Nat
  inconsistentNodes : Nat
  inconsistencies : List Inconsistency
  duration : Int
  consistencyPercentage : Rat
  status : String
  deriving DecidableEq, Repr

/-- The validation loop (lines 199-228): for every stored record, recompute
the expected cumulative weight with the same recursive descendant sum the
engine uses, and either count the record valid or append a mismatch entry.
`none` when the recursion diverges in Go (cyclic child adjacency). -/
def validateScan (s : List Node) : Option (Nat × List Inconsistency) :=
  s.foldl
    (fun acc node =>
      acc.bind (fun vi =>
        (descWeightD (getNode s) (childrenOf s) (s.length + 1) node.id).map (fun dw =>
          let expected := node.weight + dw
          if node.cumulativeWeight = expected then (vi.1 + 1, vi.2)
          else
            (vi.1,
              vi.2 ++ [⟨node.id, expected, node.cumulativeWeight,
                expected - node.cumulativeWeight⟩]))))
    (some (0, []))

/-- `ValidateDAGConsistency`: assemble the report from the scan, the store
size, and the two clock reads (`startTime` is taken at entry, `now` stands
for the clock reads that produce `validation_time` and `duration`). -/
def validateConsistency (s : List Node) (startTime now : Int) : Option ConsistencyReport :=
  (validateScan s).map (fun vi =>
    { validationTime := now
      totalNodes := s.length
      validNodes := vi.1
      inconsistentNodes := vi.2.length
      inconsistencies := vi.2
      duration := now - startTime
      consistencyPercentage :=
        if s.length = 0 then 100 else (vi.1 : Rat) / (s.length : Rat) * 100
      status := if 0 < vi.2.length then "inconsistent" else "consistent" })

/-- The report fields that are functions of the store alone (everything
except the two wall-clock fields). -/
def reportCore (r : ConsistencyReport) :
    Nat × Nat × Nat × List Inconsistency × Rat × String :=
  (r.totalNodes, r.validNodes, r.inconsistentNodes, r.inconsistencies,
    r.consistencyPercentage, r.status)

/-! ### Checkpoint-aware repository (src/unnamed/part_005)

The underlying LevelDB store maps byte keys to byte values; nodes are
stored under their id, checkpoints under `"checkpoint:" ++ id`.
`GetAllNodes` iterates over *every* key and JSON-decodes each value as a
`models.Node`; decoding a checkpoint value yields the zero node, because
the checkpoint JSON keys (`checkpoint_id`, `timestamp`, `root_hash`,
`node_count`) are disjoint from the node JSON keys. -/

/-- `models.Checkpoint` of src/unnamed/part_004. -/
structure Checkpoint where
  id : String
  timestamp : Int
  rootHash : String
  nodeCount : Int
  deriving DecidableEq, Repr

/-- A value persisted in the key-value store, tagged by what was
serialized into it. -/
inductive StoredVal where
  | nodeVal (n : Node)
  | checkpointVal (cp : Checkpoint)
  deriving DecidableEq, Repr

/-- `LevelDB.Put`: upsert of a key-value pair. -/
def kvPut (s : List (String × StoredVal)) (k : String) (v : StoredVal) :
    List (String × StoredVal) :=
  if s.any (fun e => e.1 == k) then s.map (fun e => if e.1 == k then (k, v) else e)
  else s ++ [(k, v)]

/-- The zero value of `models.Node`: what `json.Unmarshal` produces from a
JSON object none of whose keys matches a node field tag. -/
def zeroNode : Node := ⟨"", [], 0, 0, 0⟩

/-- JSON-decoding a stored value as a `models.Node`: a node value decodes
to itself, a checkpoint value decodes to the zero node (disjoint JSON
keys, see above). -/
def decodeAsNode : StoredVal → Node
  | .nodeVal n => n
  | .checkpointVal _ => zeroNode

/-- `NodeRepository.GetAllNodes` (src/unnamed/part_005, lines 51-64): the
iterator ranges over every key-value pair of the store — including the
checkpoint entries — and each value is decoded as a node. -/
def repoGetAllNodes (s : List (String × StoredVal)) : List Node :=
  s.map (fun e => decodeAsNode e.2)

/-- `NodeRepository.PutCheckpoint` (src/unnamed/part_005, lines 67-74). -/
def repoPutCheckpoint (s : List (String × StoredVal)) (cp : Checkpoint) :
    List (String × StoredVal) :=
  kvPut s ("checkpoint:" ++ cp.id) (.checkpointVal cp)

/-- A sequence of `PutCheckpoint` calls. -/
def putCheckpoints (s : List (String × StoredVal)) (cps : List Checkpoint) :
    List (String × StoredVal) :=
  cps.foldl repoPutCheckpoint s

/-! ### Concrete scenario states

The literal stores below are the results of running the embedded
operations on the concrete inputs of the testable properties; each is used
by exactly the claims about that scenario. -/

/-- A candidate record carrying only its id and parents. -/
def cand (i : String) (ps : List String) : Node := ⟨i, ps, 0, 0, 0⟩

/-- Store after `AddNode("1")`, `ApproveNode("2",["1"])`,
`ApproveNode("3",["2"])` at times 1, 2, 3. -/
def chainStore : List Node :=
  [⟨"1", [], 1, 2, 1⟩, ⟨"2", ["1"], 1, 1, 2⟩, ⟨"3", ["2"], 0, 0, 3⟩]

/-- The store contents at the moment the loop-closing approval of claim C1
hangs: record 1 has been overwritten with parent 3, the weight of record 3
has been incremented, and the cumulative-weight recomputation diverges. -/
def loopHangStore : List Node :=
  [⟨"1", ["3"], 0, 0, 4⟩, ⟨"2", ["1"], 1, 1, 2⟩, ⟨"3", ["2"], 1, 0, 3⟩]

/-- Store after `AddNode("1")` and `ApproveNode("2",["1"])`. -/
def pairStore : List Node :=
  [⟨"1", [], 1, 1, 1⟩, ⟨"2", ["1"], 0, 0, 2⟩]

/-- A store holding a two-cycle, reachable through two `AddNode` calls with
dangling-then-mutual parent references (plain admission stores the
candidate parents verbatim). -/
def twoCycleStore : List Node :=
  [⟨"A", ["B"], 0, 0, 1⟩, ⟨"B", ["A"], 0, 0, 2⟩]

/-- Diamond store: `AddNode("A")`, then approvals B←A, C←A, D←{B,C}. -/
def diamondStore : List Node :=
  [⟨"A", [], 2, 4, 1⟩, ⟨"B", ["A"], 1, 1, 2⟩, ⟨"C", ["A"], 1, 1, 3⟩,
    ⟨"D", ["B", "C"], 0, 0, 4⟩]

/-- The diamond store after additionally approving E←D. -/
def diamondStoreE : List Node :=
  [⟨"A", [], 2, 6, 1⟩, ⟨"B", ["A"], 1, 2, 2⟩, ⟨"C", ["A"], 1, 2, 3⟩,
    ⟨"D", ["B", "C"], 1, 1, 4⟩, ⟨"E", ["D"], 0, 0, 5⟩]

/-- A constant randomness oracle for concrete walks. -/
def zeroWalkRand : WalkRand :=
  ⟨0, 0, fun _ => ⟨0, false, 0, 0, fun _ => 0⟩⟩

/-- The record fields the descendant-weight recursion can observe:
everything except the cumulative weight and the timestamp. -/
def wfields (n : Node) : String × List String × Int :=
  (n.id, n.parents, n.weight)

/-- The record fields that determine the derived adjacency maps. -/
def sfields (n : Node) : String × List String :=
  (n.id, n.parents)

/-! ## Theorems -/

theorem descWeightD_zero (look : String → Option Node) (ch : String → List String)
    (nid : String) : descWeightD look ch 0 nid = none := rfl

theorem descWeightD_succ (look : String → Option Node) (ch : String → List String)
    (fuel : Nat) (nid : String) :
    descWeightD look ch (fuel + 1) nid =
      (ch nid).foldl
        (fun acc cid =>
          acc.bind (fun a =>
            match look cid with
            | none => some a
            | some c => (descWeightD look ch fuel cid).map (fun d => a + c.weight + d)))
        (some 0) := rfl

theorem markAff_zero (pm : String → List String) (nid : String) (aff : List String) :
    markAff pm 0 nid aff = aff := rfl

theorem markAff_succ (pm : String → List String) (fuel : Nat) (nid : String)
    (aff : List String) :
    markAff pm (fuel + 1) nid aff =
      if aff.contains nid then aff
      else (pm nid).foldl (fun a p => markAff pm fuel p a) (nid :: aff) := rfl

/-! ### Claim C6: self-reference is always rejected first, with no mutation -/

/-- C6: for every store state and every candidate record whose parents list
contains its own id, `ApproveNode` returns the self-reference error —
regardless of what other parents are listed, since the self-reference scan
is the first check performed — and the store is unchanged (the error
outcome carries the untouched store). -/
theorem C6_approveNode_selfReference (s : List Node) (node : Node) (now : Int)
    (h : node.id ∈ node.parents) :
    approveNode s node now = .err .selfReference s := by
  have hany : node.parents.any (fun pid => pid == node.id) = true := by
    rw [List.any_eq_true]
    exact ⟨node.id, h, by simp⟩
  unfold approveNode
  rw [hany]
  rfl

/-- Witness for C6 at a concrete input: a candidate naming itself among
two other parents (one missing, one that would close a cycle) is rejected
as a self-reference with the store untouched. -/
theorem C6_witness :
    approveNode chainStore (cand "3" ["2", "3", "missing"]) 7 =
      .err .selfReference chainStore :=
  C6_approveNode_selfReference chainStore (cand "3" ["2", "3", "missing"]) 7 (by decide)

/-! ### Claim C4: the chain scenario of the weight-propagation property -/

/-- C4: starting from the empty store, `AddNode("1")`,
`ApproveNode("2",["1"])`, `ApproveNode("3",["2"])` (candidates carrying
only id and parents) all succeed, and the resulting state has
weight(1)=1, weight(2)=1, weight(3)=0 and cumulative weights 2, 1, 0. -/
theorem C4_weightPropagation_chain :
    ((addNode [] (cand "1" []) 1).okState.bind (fun s1 =>
      (approveNode s1 (cand "2" ["1"]) 2).okState.bind (fun s2 =>
        (approveNode s2 (cand "3" ["2"]) 3).okState))) = some chainStore ∧
    (getNode chainStore "1").map (fun n => (n.weight, n.cumulativeWeight)) = some (1, 2) ∧
    (getNode chainStore "2").map (fun n => (n.weight, n.cumulativeWeight)) = some (1, 1) ∧
    (getNode chainStore "3").map (fun n => (n.weight, n.cumulativeWeight)) = some (0, 0) := by
  decide

/-! ### Claim C2: uniqueness of admission -/

/-- C2 (amended): a second `AddNode` of an already stored id returns the
conflict error and leaves the store — in particular the stored record —
unchanged.  (The re-admission guard exists only on the `AddNode` path;
`ApproveNode` performs no such check, see the counterexample below.) -/
theorem C2_addNode_duplicate_conflict (s : List Node) (node : Node) (now : Int)
    (h : (getNode s node.id).isSome = true) :
    addNode s node now = .err .alreadyExists s := by
  unfold addNode
  cases hg : getNode s node.id with
  | none => rw [hg] at h; simp at h
  | some n => rfl

/-- Witness for C2 at a concrete input: after the successful admissions
producing `pairStore`, re-adding id 1 returns the conflict error with the
store untouched. -/
theorem C2_witness :
    addNode pairStore (cand "1" []) 9 = .err .alreadyExists pairStore :=
  C2_addNode_duplicate_conflict pairStore (cand "1" []) 9 (by decide)

/-- Counterexample to C2 as stated: re-admission through `ApproveNode` is
not rejected — approving the already stored id 2 again (with its valid
parent) succeeds, overwriting the record. -/
theorem C2_counterexample :
    (getNode pairStore "2").isSome = true ∧
    (approveNode pairStore (cand "2" ["1"]) 9).isOk = true := by
  decide

/-! ### Claim C5: missing parents -/

/-- C5 (amended): for every store state and every candidate with at least
one unstored parent and no self-reference, `ApproveNode` fails before any
mutation — with the parent-not-found error, or with the cycle-detected
error in case the already stored graph contains a cycle among the declared
parents and their stored descendants (the cycle pre-check runs before the
existence check); either way the store is returned unchanged. -/
theorem C5_missingParent_rejected_noMutation (s : List Node) (node : Node) (now : Int)
    (hmiss : ∃ p ∈ node.parents, getNode s p = none)
    (hself : node.id ∉ node.parents) :
    (approveNode s node now).isParentNotFoundOrCycleErr = true ∧
    (approveNode s node now).post = s := by
  have hany : node.parents.any (fun pid => pid == node.id) = false := by
    rw [List.any_eq_false]
    intro pid hpid
    simp only [beq_iff_eq]
    intro hEq
    exact hself (hEq ▸ hpid)
  unfold approveNode
  rw [hany]
  simp only [Bool.false_eq_true, if_false]
  cases hc : checkForCircularReferences s node.parents with
  | true => exact ⟨rfl, rfl⟩
  | false =>
      obtain ⟨p, hp, hpn⟩ := hmiss
      have hfind : (node.parents.find? (fun pid => (getNode s pid).isNone)).isSome := by
        rw [List.find?_isSome]
        exact ⟨p, hp, by rw [hpn]; rfl⟩
      obtain ⟨q, hq⟩ := Option.isSome_iff_exists.mp hfind
      rw [hq]
      exact ⟨rfl, rfl⟩

/-- Witness for C5 at a concrete input: approving a fresh record whose only
declared parent is absent from `pairStore` fails with no mutation. -/
theorem C5_witness :
    (approveNode pairStore (cand "9" ["7"]) 4).isParentNotFoundOrCycleErr = true ∧
    (approveNode pairStore (cand "9" ["7"]) 4).post = pairStore :=
  C5_missingParent_rejected_noMutation pairStore (cand "9" ["7"]) 4
    ⟨"7", by decide, by decide⟩ (by decide)

/-- Counterexample to C5 as stated: on the (reachable) store holding the
two-cycle A↔B, a candidate listing the missing parent X together with A
and B is rejected with the cycle error, not with parent-not-found. -/
theorem C5_counterexample :
    getNode twoCycleStore "X" = none ∧
    "X" ∈ (cand "C" ["A", "B", "X"]).parents ∧
    "C" ∉ (cand "C" ["A", "B", "X"]).parents ∧
    approveNode twoCycleStore (cand "C" ["A", "B", "X"]) 3 =
      .err .cycleDetected twoCycleStore := by
  decide

/-! ### Claim C1: the loop-closing approval -/

/-- Counterexample to C1 as stated: after the approval chain 1←2←3, the
loop-closing `ApproveNode` of id 1 with parent 3 is *not* rejected with the
cycle-detected error (the cycle check only walks edges already stored, and
nothing yet lists 3 as a parent). -/
theorem C1_counterexample :
    ((addNode [] (cand "1" []) 1).okState.bind (fun s1 =>
      (approveNode s1 (cand "2" ["1"]) 2).okState.bind (fun s2 =>
        (approveNode s2 (cand "3" ["2"]) 3).okState))) = some chainStore ∧
    (approveNode chainStore (cand "1" ["3"]) 4).isCycleErr = false := by
  decide

/-- C1 (amended): the loop-closing approval of id 1 with parent 3 passes
every validation, durably overwrites record 1 with parent 3 — making the
stored parent relation cyclic (1→2→3→1 in child edges) — and then the
cumulative-weight recomputation recurses forever, so the call hangs instead
of returning an error or a success. -/
theorem C1_loopClose_persists_cycle_then_hangs :
    approveNode chainStore (cand "1" ["3"]) 4 = .hang loopHangStore ∧
    getNode loopHangStore "1" = some ⟨"1", ["3"], 0, 0, 4⟩ ∧
    ChPath (childrenOf loopHangStore) "1" "1" := by
  refine ⟨by decide, by decide, ?_⟩
  exact @ChPath.cons (childrenOf loopHangStore) "1" "2" "1" (by decide)
    (@ChPath.cons (childrenOf loopHangStore) "2" "3" "1" (by decide)
      (@ChPath.single (childrenOf loopHangStore) "3" "1" (by decide)))

/-! ### Claim C9: validation idempotence -/

/-- Counterexample to C9 as stated: two consecutive validation calls on the
same (empty, hence trivially consistent) store with different clock
readings produce reports that are not identical — the wall-clock
`validation_time` field differs. -/
theorem C9_counterexample :
    validateConsistency [] 0 0 ≠ validateConsistency [] 0 1 := by
  decide

/-- C9 (amended): two `ValidateConsistency` calls with no mutation in
between agree on every report field that is a function of the store —
totals, valid counts, the mismatch list, the percentage and the status;
only the two wall-clock fields (`validation_time`, `duration`) can differ
between the runs. -/
theorem C9_validate_core_idempotent (s : List Node) (st1 n1 st2 n2 : Int) :
    (validateConsistency s st1 n1).map reportCore =
      (validateConsistency s st2 n2).map reportCore := by
  unfold validateConsistency
  cases validateScan s with
  | none => rfl
  | some vi => rfl

/-! ### Graph lemmas: edges, rankings, depth bounds, fuel adequacy -/

theorem mem_childrenOf {ns : List Node} {x y : String} :
    y ∈ childrenOf ns x ↔ ∃ n, n ∈ ns ∧ n.id = y ∧ x ∈ n.parents := by
  unfold childrenOf
  simp only [List.mem_flatMap, List.mem_map, List.mem_filter, beq_iff_eq]
  constructor
  · rintro ⟨n, hn, a, ⟨ha, rfl⟩, rfl⟩
    exact ⟨n, hn, rfl, ha⟩
  · rintro ⟨n, hn, rfl, hx⟩
    exact ⟨n, hn, x, ⟨hx, rfl⟩, rfl⟩

theorem childrenOf_sub_ids {ns : List Node} {x y : String} (h : y ∈ childrenOf ns x) :
    y ∈ ns.map (fun n => n.id) := by
  obtain ⟨n, hn, rfl, _⟩ := mem_childrenOf.mp h
  exact List.mem_map_of_mem _ hn

/-- A strictly decreasing ranking along parent references certifies
acyclicity (used to discharge `Acyclic` on concrete stores). -/
theorem chPath_rank_lt {ns : List Node} {rk : String → Nat}
    (hrk : rankedB ns rk = true) {a b : String}
    (hp : ChPath (childrenOf ns) a b) : rk b < rk a := by
  have hedge : ∀ {u v : String}, v ∈ childrenOf ns u → rk v < rk u := by
    intro u v hv
    obtain ⟨n, hn, rfl, hu⟩ := mem_childrenOf.mp hv
    have h1 := (List.all_eq_true.mp hrk) n hn
    have h2 := (List.all_eq_true.mp h1) u hu
    exact of_decide_eq_true h2
  induction hp with
  | single h => exact hedge h
  | cons h _ ih => exact Nat.lt_trans ih (hedge h)

theorem acyclic_of_ranked {ns : List Node} {rk : String → Nat}
    (hrk : rankedB ns rk = true) : Acyclic ns := by
  intro x hx
  exact absurd (chPath_rank_lt hrk hx) (lt_irrefl _)

theorem depthLe_mono {ch : String → List String} {x : String} {k : Nat}
    (h : DepthLe ch x k) : ∀ m, k ≤ m → DepthLe ch x m := by
  induction h with
  | step hchild ih =>
      intro m hm
      cases m with
      | zero => omega
      | succ m' =>
          exact DepthLe.step (fun y hy => ih y hy m' (by omega))

/-- Acyclicity bounds the length of every child chain by the number of
distinct stored ids. -/
theorem acyclic_depthLe_aux {ns : List Node} (hac : Acyclic ns) :
    ∀ (m : Nat) (x : String) (vis : Finset String),
      vis ⊆ (ns.map (fun n => n.id)).toFinset →
      (∀ v ∈ vis, ¬ ChPath (childrenOf ns) x v) →
      (ns.map (fun n => n.id)).toFinset.card - vis.card ≤ m →
      DepthLe (childrenOf ns) x (m + 1) := by
  intro m
  induction m with
  | zero =>
      intro x vis hsub hnp hcard
      refine DepthLe.step (fun y hy => ?_)
      exfalso
      have hyid : y ∈ (ns.map (fun n => n.id)).toFinset :=
        List.mem_toFinset.mpr (childrenOf_sub_ids hy)
      have hveq : vis = (ns.map (fun n => n.id)).toFinset :=
        Finset.eq_of_subset_of_card_le hsub (by omega)
      exact hnp y (hveq ▸ hyid) (ChPath.single hy)
  | succ m' ih =>
      intro x vis hsub hnp hcard
      refine DepthLe.step (fun y hy => ?_)
      have hyid : y ∈ (ns.map (fun n => n.id)).toFinset :=
        List.mem_toFinset.mpr (childrenOf_sub_ids hy)
      have hynv : y ∉ vis := fun hyin => hnp y hyin (ChPath.single hy)
      refine ih y (insert y vis) ?_ ?_ ?_
      · exact Finset.insert_subset hyid hsub
      · intro v hv
        rcases Finset.mem_insert.mp hv with rfl | hvv
        · exact hac v
        · intro hpath
          exact hnp v hvv (ChPath.cons hy hpath)
      · rw [Finset.card_insert_of_not_mem hynv]
        omega

theorem acyclic_depthLe {ns : List Node} (hac : Acyclic ns) (x : String) :
    DepthLe (childrenOf ns) x (ns.length + 1) := by
  have h := acyclic_depthLe_aux hac (ns.map (fun n => n.id)).toFinset.card x ∅
    (Finset.empty_subset _) (by intro v hv; cases hv) (by omega)
  refine depthLe_mono h _ ?_
  have hle : (ns.map (fun n => n.id)).toFinset.card ≤ ns.length := by
    calc (ns.map (fun n => n.id)).toFinset.card ≤ (ns.map (fun n => n.id)).length :=
          (ns.map (fun n => n.id)).toFinset_card_le
    _ = ns.length := List.length_map _ _
  omega

theorem descWeightD_succ_fold (look : String → Option Node) (ch : String → List String)
    (fuel : Nat) (nid : String) :
    descWeightD look ch (fuel + 1) nid =
      (ch nid).foldl (descStep look (descWeightD look ch fuel)) (some 0) := rfl

/-- Pointwise-equal, defined child evaluations give equal, defined folds. -/
theorem descFold_spec (look : String → Option Node) (F G : String → Option Int) :
    ∀ (l : List String), (∀ cid ∈ l, F cid = G cid ∧ (F cid).isSome = true) →
      ∀ a : Int,
        l.foldl (descStep look F) (some a) = l.foldl (descStep look G) (some a) ∧
        (l.foldl (descStep look F) (some a)).isSome = true := by
  intro l
  induction l with
  | nil => intro _ a; exact ⟨rfl, rfl⟩
  | cons cid rest ih =>
      intro h a
      have hcid := h cid (List.mem_cons_self cid rest)
      have hrest : ∀ c ∈ rest, F c = G c ∧ (F c).isSome = true :=
        fun c hc => h c (List.mem_cons_of_mem cid hc)
      rw [List.foldl_cons, List.foldl_cons]
      cases hlook : look cid with
      | none =>
          have hstepF : descStep look F (some a) cid = some a := by
            simp [descStep, hlook]
          have hstepG : descStep look G (some a) cid = some a := by
            simp [descStep, hlook]
          rw [hstepF, hstepG]
          exact ih hrest a
      | some c =>
          obtain ⟨d, hd⟩ := Option.isSome_iff_exists.mp hcid.2
          have hstepF : descStep look F (some a) cid = some (a + c.weight + d) := by
            simp [descStep, hlook, hd]
          have hstepG : descStep look G (some a) cid = some (a + c.weight + d) := by
            simp [descStep, hlook, ← hcid.1, hd]
          rw [hstepF, hstepG]
          exact ih hrest (a + c.weight + d)

/-- On ids whose child chains are depth-bounded, the descendant-weight
recursion is defined and independent of the fuel, for any fuel at least
the bound. -/
theorem descWeightD_stable {ch : String → List String} {x : String} {k : Nat}
    (look : String → Option Node) (h : DepthLe ch x k) :
    ∀ f g, k ≤ f → k ≤ g →
      descWeightD look ch f x = descWeightD look ch g x ∧
      (descWeightD look ch f x).isSome = true := by
  induction h with
  | @step x k hchild ih =>
      intro f g hf hg
      cases f with
      | zero => omega
      | succ f' =>
          cases g with
          | zero => omega
          | succ g' =>
              rw [descWeightD_succ_fold, descWeightD_succ_fold]
              exact descFold_spec look _ _ (ch x)
                (fun cid hcid =>
                  ⟨(ih cid hcid f' g' (by omega) (by omega)).1,
                   (ih cid hcid f' g' (by omega) (by omega)).2⟩) 0

theorem walkToTipD_zero (look : String → Option Node) (ch : String → List String)
    (cur : String) (picks : Nat → Nat) : walkToTipD look ch 0 cur picks = none := rfl

theorem walkToTipD_succ (look : String → Option Node) (ch : String → List String)
    (fuel : Nat) (cur : String) (picks : Nat → Nat) :
    walkToTipD look ch (fuel + 1) cur picks =
      match ch cur with
      | [] => some (look cur)
      | c :: cs =>
          walkToTipD look ch fuel
            ((c :: cs).get ⟨picks 0 % (c :: cs).length, Nat.mod_lt _ (Nat.succ_pos _)⟩)
            (fun k => picks (k + 1)) := rfl

/-- On ids whose child chains are depth-bounded, `walkToTip` terminates. -/
theorem walkToTipD_isSome {ch : String → List String} {x : String} {k : Nat}
    (look : String → Option Node) (h : DepthLe ch x k) :
    ∀ f, k ≤ f → ∀ picks, (walkToTipD look ch f x picks).isSome = true := by
  induction h with
  | @step x k hchild ih =>
      intro f hf picks
      cases f with
      | zero => omega
      | succ f' =>
          rw [walkToTipD_succ]
          cases hch : ch x with
          | nil => rfl
          | cons c cs =>
              have hmem : (c :: cs).get
                  ⟨picks 0 % (c :: cs).length, Nat.mod_lt _ (Nat.succ_pos _)⟩ ∈ ch x := by
                rw [hch]
                exact List.get_mem _ _ _
              exact ih _ hmem f' (by omega) (fun k => picks (k + 1))

/-- On a depth-bounded graph the `calculateCumulativeWeight` helper is
defined. -/
theorem calcCumD_isSome {ch : String → List String} {k : Nat}
    (look : String → Option Node) (hall : ∀ x, DepthLe ch x k)
    (f : Nat) (hf : k ≤ f) (nid : String) : (calcCumD look ch f nid).isSome = true := by
  unfold calcCumD
  cases look nid with
  | none => rfl
  | some n =>
      obtain ⟨d, hd⟩ :=
        Option.isSome_iff_exists.mp ((descWeightD_stable look (hall nid) f f hf hf).2)
      rw [hd]
      rfl

/-! ### Claim C10: checkpoint entries leak into `GetAllNodes` -/

theorem kvPut_fresh (s : List (String × StoredVal)) (k : String) (v : StoredVal)
    (h : ∀ e ∈ s, e.1 ≠ k) : kvPut s k v = s ++ [(k, v)] := by
  have hany : s.any (fun e => e.1 == k) = false := by
    rw [List.any_eq_false]
    intro e he
    simpa using h e he
  unfold kvPut
  rw [hany]
  simp

/-- C10: in the checkpoint-aware repository, after `PutCheckpoint` has
stored `k` (distinct, not previously present) checkpoints, `GetAllNodes`
returns the previously visible records plus `k` additional zero-valued
records (empty id, no parents, weight 0) decoded from the checkpoint
entries, because its iteration covers every key of the store including the
checkpoint-prefixed ones. -/
theorem C10_checkpoints_inflate_getAllNodes (s : List (String × StoredVal))
    (cps : List Checkpoint)
    (hfresh : ∀ cp ∈ cps, ∀ e ∈ s, e.1 ≠ "checkpoint:" ++ cp.id)
    (hnodup : (cps.map (fun cp => "checkpoint:" ++ cp.id)).Nodup) :
    repoGetAllNodes (putCheckpoints s cps) =
      repoGetAllNodes s ++ List.replicate cps.length zeroNode := by
  induction cps generalizing s with
  | nil => simp [putCheckpoints, repoGetAllNodes]
  | cons cp rest ih =>
      have hstep : putCheckpoints s (cp :: rest) =
          putCheckpoints (repoPutCheckpoint s cp) rest := rfl
      have hput : repoPutCheckpoint s cp =
          s ++ [("checkpoint:" ++ cp.id, StoredVal.checkpointVal cp)] :=
        kvPut_fresh s _ _ (hfresh cp (List.mem_cons_self cp rest))
      rw [List.map_cons, List.nodup_cons] at hnodup
      obtain ⟨hhead, hnodup'⟩ := hnodup
      have hfresh' : ∀ c ∈ rest,
          ∀ e ∈ s ++ [("checkpoint:" ++ cp.id, StoredVal.checkpointVal cp)],
            e.1 ≠ "checkpoint:" ++ c.id := by
        intro c hc e he
        rcases List.mem_append.mp he with hes | hlast
        · exact hfresh c (List.mem_cons_of_mem cp hc) e hes
        · have heq : e = ("checkpoint:" ++ cp.id, StoredVal.checkpointVal cp) := by
            simpa using hlast
          subst heq
          intro hcontra
          apply hhead
          rw [show ("checkpoint:" ++ cp.id) = "checkpoint:" ++ c.id from hcontra]
          exact List.mem_map_of_mem (fun x => "checkpoint:" ++ x.id) hc
      rw [hstep, hput, ih _ hfresh' hnodup']
      simp [repoGetAllNodes, decodeAsNode, List.replicate_succ]

/-- Witness for C10 at a concrete input: putting two checkpoints into a
store holding one admitted record makes `GetAllNodes` return that record
followed by two zero nodes. -/
theorem C10_witness :
    repoGetAllNodes (putCheckpoints [("n1", StoredVal.nodeVal (cand "n1" []))]
        [⟨"cp1", 10, "h1", 1⟩, ⟨"cp2", 20, "h2", 1⟩]) =
      [cand "n1" [], zeroNode, zeroNode] := by
  have h := C10_checkpoints_inflate_getAllNodes
    [("n1", StoredVal.nodeVal (cand "n1" []))]
    [⟨"cp1", 10, "h1", 1⟩, ⟨"cp2", 20, "h2", 1⟩]
    (by decide) (by decide)
  simpa [repoGetAllNodes, decodeAsNode] using h

/-! ### Claim C7: tip selection failure modes -/

/-- C7: `SelectTip` fails with the no-nodes error exactly when the store is
empty; on a nonempty store whose derived child adjacency leaves no tip, it
does not fail but returns the stored record at the uniformly drawn
fallback index. -/
theorem C7_tipSelection_noNodes_and_fallback (s : List Node) (maxSteps : Nat) (r : WalkRand) :
    (tipSelectionMCMC s maxSteps r = some (.error .noNodes) ↔ s = []) ∧
    (s ≠ [] → tipsOf s = [] →
      tipSelectionMCMC s maxSteps r = (s.get? (r.fallbackPick % s.length)).map Except.ok) := by
  refine ⟨⟨?_, ?_⟩, ?_⟩
  · intro h
    by_contra hne
    rw [tipSelectionMCMC, dif_neg hne] at h
    by_cases ht : tipsOf s = []
    · rw [dif_pos ht] at h
      simp at h
    · rw [dif_neg ht] at h
      obtain ⟨a, -, hcontra⟩ := Option.map_eq_some'.mp h
      exact Except.noConfusion hcontra
  · rintro rfl
    rw [tipSelectionMCMC, dif_pos rfl]
  · intro hne ht
    rw [tipSelectionMCMC, dif_neg hne, dif_pos ht]
    have hlt : r.fallbackPick % s.length < s.length :=
      Nat.mod_lt _ (List.length_pos.mpr hne)
    rw [List.get?_eq_get hlt]
    rfl

/-- Witness for C7 at a concrete input: the two-cycle store is nonempty and
has no tips (each record approves the other), and tip selection returns the
record at the fallback index instead of failing. -/
theorem C7_witness :
    tipSelectionMCMC twoCycleStore 5 zeroWalkRand =
      (twoCycleStore.get? (zeroWalkRand.fallbackPick % twoCycleStore.length)).map Except.ok :=
  (C7_tipSelection_noNodes_and_fallback twoCycleStore 5 zeroWalkRand).2
    (by decide) (by decide)

/-! ### Claim C8: the walk runs its full budget and never fails -/

theorem mcmcWalkChild_isSome {ch : String → List String} {K : Nat}
    (look : String → Option Node) (hall : ∀ x, DepthLe ch x K)
    (fuel : Nat) (hf : K ≤ fuel) (sr : StepRand) (cur1 : Node) (childID : String) :
    (mcmcWalkChild look ch fuel sr cur1 childID).isSome = true := by
  unfold mcmcWalkChild
  cases look childID with
  | none => rfl
  | some _ =>
      obtain ⟨w, hw⟩ := Option.isSome_iff_exists.mp
        (walkToTipD_isSome look (hall childID) fuel hf sr.walkPicks)
      rw [hw]
      cases w with
      | none => rfl
      | some tip => rfl

theorem mcmcDescend_isSome {ch : String → List String} {K : Nat}
    (look : String → Option Node) (hall : ∀ x, DepthLe ch x K)
    (fuel : Nat) (hf : K ≤ fuel) (sr : StepRand) (cur1 : Node) (parentID : String) :
    (mcmcDescend look ch fuel sr cur1 parentID).isSome = true := by
  unfold mcmcDescend
  cases look parentID with
  | none => rfl
  | some _ =>
      cases ch parentID with
      | nil => rfl
      | cons c cs => exact mcmcWalkChild_isSome look hall fuel hf sr cur1 _

theorem mcmcPerturb_isSome {ch : String → List String} {K : Nat}
    (look : String → Option Node) (pm : String → List String) (hall : ∀ x, DepthLe ch x K)
    (fuel : Nat) (hf : K ≤ fuel) (sr : StepRand) (cur1 : Node) :
    (mcmcPerturb look ch pm fuel sr cur1).isSome = true := by
  unfold mcmcPerturb
  cases pm cur1.id with
  | nil => rfl
  | cons p ps => exact mcmcDescend_isSome look hall fuel hf sr cur1 _

theorem mcmcStep_isSome {ch : String → List String} {K : Nat}
    (tips : List Node) (look : String → Option Node) (pm : String → List String)
    (htips : tips ≠ []) (hall : ∀ x, DepthLe ch x K)
    (fuel : Nat) (hf : K ≤ fuel) (i : Nat) (sr : StepRand) (cur : Node) :
    (mcmcStep tips look ch pm htips fuel i sr cur).isSome = true := by
  unfold mcmcStep
  obtain ⟨v1, h1⟩ := Option.isSome_iff_exists.mp (calcCumD_isSome look hall fuel hf cur.id)
  rw [h1, Option.some_bind]
  obtain ⟨v2, h2⟩ := Option.isSome_iff_exists.mp (calcCumD_isSome look hall fuel hf
    (proposedTip tips htips sr).id)
  rw [h2, Option.some_bind]
  cases (i % 100 == 0) with
  | false => rfl
  | true => exact mcmcPerturb_isSome look pm hall fuel hf sr _

/-- C8: on every nonempty store whose stored graph is acyclic, and for
every source of random choices and every step budget, the MCMC walk of
`SelectTip` terminates (it runs the full budget — the loop has no early
exit) and returns a record; it never surfaces a step-bound failure. -/
theorem C8_tipSelection_terminates_ok (s : List Node) (maxSteps : Nat) (r : WalkRand)
    (hne : s ≠ []) (hac : Acyclic s) :
    (tipSelectionMCMC s maxSteps r).map exceptIsOk = some true := by
  rw [tipSelectionMCMC, dif_neg hne]
  by_cases ht : tipsOf s = []
  · rw [dif_pos ht]
    rfl
  · rw [dif_neg ht]
    have hall : ∀ x, DepthLe (childrenOf s) x (s.length + 1) := acyclic_depthLe hac
    have hsome : ∀ (rem i : Nat) (cur : Node),
        (mcmcWalk
          (fun i cur =>
            mcmcStep (tipsOf s) (mapById s) (childrenOf s) (parentsOf s) ht (s.length + 1) i
              (r.step i) cur)
          i rem cur).isSome = true := by
      intro rem
      induction rem with
      | zero => intro i cur; rfl
      | succ rem ih =>
          intro i cur
          obtain ⟨nxt, hnxt⟩ := Option.isSome_iff_exists.mp
            (mcmcStep_isSome (tipsOf s) (mapById s) (parentsOf s) ht hall
              (s.length + 1) (le_refl _) i (r.step i) cur)
          rw [mcmcWalk, hnxt]
          exact ih (i + 1) nxt
    obtain ⟨n, hn⟩ := Option.isSome_iff_exists.mp (hsome maxSteps 0 _)
    rw [hn]
    rfl

/-- Witness for C8 at a concrete input: on the singleton acyclic store the
walk runs its three-step budget and returns a record. -/
theorem C8_witness :
    (tipSelectionMCMC [cand "1" []] 3 zeroWalkRand).map exceptIsOk = some true :=
  C8_tipSelection_terminates_ok [cand "1" []] 3 zeroWalkRand (by decide)
    (@acyclic_of_ranked [cand "1" []] (fun _ => 0) (by decide))

/-! ### Store algebra: lookups, upserts, projections -/

theorem getNode_mem {s : List Node} {x : String} {r : Node} (h : getNode s x = some r) :
    r ∈ s :=
  List.mem_of_find?_eq_some h

theorem getNode_id {s : List Node} {x : String} {r : Node} (h : getNode s x = some r) :
    r.id = x := by
  simpa using List.find?_some h

theorem getNode_eq_none_iff {s : List Node} {x : String} :
    getNode s x = none ↔ ∀ m ∈ s, m.id ≠ x := by
  unfold getNode
  rw [List.find?_eq_none]
  simp

theorem getNode_isSome_any {s : List Node} {x : String} {r : Node}
    (h : getNode s x = some r) : s.any (fun m => m.id == x) = true := by
  rw [List.any_eq_true]
  exact ⟨r, getNode_mem h, by simp [getNode_id h]⟩

theorem getNode_cons {n : Node} {t : List Node} {x : String} :
    getNode (n :: t) x = if n.id == x then some n else getNode t x := by
  cases h : (n.id == x) with
  | true => simp [getNode, List.find?_cons, h]
  | false => simp [getNode, List.find?_cons, h]

theorem getNode_append_other {s : List Node} {q : Node} {x : String} (h : x ≠ q.id) :
    getNode (s ++ [q]) x = getNode s x := by
  unfold getNode
  rw [List.find?_append]
  cases hf : List.find? (fun n => n.id == x) s with
  | some m => rfl
  | none =>
      have : List.find? (fun n => n.id == x) [q] = none := by
        rw [List.find?_eq_none]
        intro a ha
        have : a = q := by simpa using ha
        subst this
        simp [Ne.symm h]
      rw [this]
      rfl

theorem getNode_append_self {s : List Node} {q : Node} (h : getNode s q.id = none) :
    getNode (s ++ [q]) q.id = some q := by
  unfold getNode at *
  rw [List.find?_append, h]
  simp [List.find?]

theorem putNode_found {s : List Node} {q : Node}
    (h : s.any (fun m => m.id == q.id) = true) :
    putNode s q = s.map (fun m => if m.id == q.id then q else m) := by
  simp [putNode, h]

theorem putNode_fresh {s : List Node} {q : Node} (h : getNode s q.id = none) :
    putNode s q = s ++ [q] := by
  have hany : s.any (fun m => m.id == q.id) = false := by
    rw [List.any_eq_false]
    intro m hm
    have := (getNode_eq_none_iff.mp h) m hm
    simpa using this
  simp [putNode, hany]

theorem getNode_map_replace_other {s : List Node} {q : Node} {x : String} (h : x ≠ q.id) :
    getNode (s.map (fun m => if m.id == q.id then q else m)) x = getNode s x := by
  induction s with
  | nil => rfl
  | cons n t ih =>
      rw [List.map_cons, getNode_cons, getNode_cons]
      by_cases hn : n.id = q.id
      · have hq : (if n.id == q.id then q else n) = q := by simp [hn]
        rw [hq]
        have h1 : (q.id == x) = false := by simpa using (Ne.symm h)
        have h2 : (n.id == x) = false := by simp [hn]; exact Ne.symm h
        rw [h1, h2]
        simpa using ih
      · have hq : (if n.id == q.id then q else n) = n := by simp [hn]
        rw [hq]
        cases hx : (n.id == x) with
        | true => rfl
        | false => simpa using ih

theorem getNode_map_replace_self {s : List Node} {q : Node} {m : Node}
    (h : getNode s q.id = some m) :
    getNode (s.map (fun m => if m.id == q.id then q else m)) q.id = some q := by
  induction s with
  | nil => exact absurd h (by simp [getNode])
  | cons n t ih =>
      rw [List.map_cons, getNode_cons]
      rw [getNode_cons] at h
      by_cases hn : n.id = q.id
      · have hq : (if n.id == q.id then q else n) = q := by simp [hn]
        rw [hq]
        simp
      · have hq : (if n.id == q.id then q else n) = n := by simp [hn]
        rw [hq]
        have hx : (n.id == q.id) = false := by simpa using hn
        rw [hx] at h ⊢
        simp only [Bool.false_eq_true, if_false]
        exact ih h

theorem putNode_getNode_self {s : List Node} {q : Node} {m : Node}
    (h : getNode s q.id = some m) :
    getNode (putNode s q) q.id = some q := by
  rw [putNode_found (getNode_isSome_any h)]
  exact getNode_map_replace_self h

theorem putNode_getNode_other {s : List Node} {q : Node} {x : String} (hx : x ≠ q.id) :
    getNode (putNode s q) x = getNode s x := by
  cases hany : s.any (fun m => m.id == q.id) with
  | true =>
      rw [putNode_found hany]
      exact getNode_map_replace_other hx
  | false =>
      have hnone : getNode s q.id = none := by
        rw [getNode_eq_none_iff]
        intro m hm
        have := List.any_eq_false.mp hany m hm
        simpa using this
      rw [putNode_fresh hnone]
      exact getNode_append_other hx

theorem nodupIds_id_unique {s : List Node} (hnd : NodupIds s) {a b : Node}
    (ha : a ∈ s) (hb : b ∈ s) (hid : a.id = b.id) : a = b := by
  induction s with
  | nil => cases ha
  | cons n t ih =>
      rw [NodupIds, List.map_cons, List.nodup_cons] at hnd
      rcases List.mem_cons.mp ha with rfl | hat
      · rcases List.mem_cons.mp hb with rfl | hbt
        · rfl
        · exact absurd (hid ▸ List.mem_map_of_mem (fun n => n.id) hbt) hnd.1
      · rcases List.mem_cons.mp hb with rfl | hbt
        · exact absurd (hid ▸ List.mem_map_of_mem (fun n => n.id) hat) hnd.1
        · exact ih hnd.2 hat hbt

theorem mem_getNode_self {s : List Node} (hnd : NodupIds s) {r : Node} (hr : r ∈ s) :
    getNode s r.id = some r := by
  induction s with
  | nil => cases hr
  | cons n t ih =>
      rw [NodupIds, List.map_cons, List.nodup_cons] at hnd
      rw [getNode_cons]
      rcases List.mem_cons.mp hr with rfl | hrt
      · simp
      · cases hx : (n.id == r.id) with
        | true =>
            exfalso
            exact hnd.1 ((beq_iff_eq.mp hx) ▸ List.mem_map_of_mem (fun n => n.id) hrt)
        | false => exact ih hnd.2 hrt

/-! ### Projection congruences -/

theorem getNode_map_wfields {a b : List Node} (h : a.map wfields = b.map wfields)
    (x : String) : (getNode a x).map wfields = (getNode b x).map wfields := by
  induction a generalizing b with
  | nil =>
      cases b with
      | nil => rfl
      | cons m u => simp at h
  | cons n t ih =>
      cases b with
      | nil => simp at h
      | cons m u =>
          rw [List.map_cons, List.map_cons] at h
          obtain ⟨hh, ht⟩ := List.cons.inj h
          rw [getNode_cons, getNode_cons]
          have hid : n.id = m.id := congrArg Prod.fst hh
          rw [hid]
          cases hx : (m.id == x) with
          | true => simp [hh]
          | false => exact ih ht

theorem getNode_weight_of_wfields {a b : List Node} (h : a.map wfields = b.map wfields)
    (x : String) :
    (getNode a x).map (fun n => n.weight) = (getNode b x).map (fun n => n.weight) := by
  have h2 := congrArg (Option.map (fun t : String × List String × Int => t.2.2))
    (getNode_map_wfields h x)
  simpa [Option.map_map, Function.comp, wfields] using h2

theorem map_sfields_of_wfields {a b : List Node} (h : a.map wfields = b.map wfields) :
    a.map sfields = b.map sfields := by
  have h2 := congrArg (List.map (fun t : String × List String × Int => (t.1, t.2.1))) h
  simpa [List.map_map, Function.comp, wfields, sfields] using h2

theorem length_of_wfields {a b : List Node} (h : a.map wfields = b.map wfields) :
    a.length = b.length := by
  have := congrArg List.length h
  simpa using this

theorem ids_of_sfields {a b : List Node} (h : a.map sfields = b.map sfields) :
    a.map (fun n => n.id) = b.map (fun n => n.id) := by
  have h2 := congrArg (List.map (fun t : String × List String => t.1)) h
  simpa [List.map_map, Function.comp, sfields] using h2

theorem childrenOf_append (a b : List Node) (x : String) :
    childrenOf (a ++ b) x = childrenOf a x ++ childrenOf b x := by
  simp [childrenOf]

theorem childrenOf_singleton (n : Node) (x : String) :
    childrenOf [n] x = (n.parents.filter (fun p => p == x)).map (fun _ => n.id) := by
  simp [childrenOf]

theorem childrenOf_of_sfields {a b : List Node} (h : a.map sfields = b.map sfields)
    (x : String) : childrenOf a x = childrenOf b x := by
  induction a generalizing b with
  | nil =>
      cases b with
      | nil => rfl
      | cons m u => simp at h
  | cons n t ih =>
      cases b with
      | nil => simp at h
      | cons m u =>
          rw [List.map_cons, List.map_cons] at h
          obtain ⟨hh, ht⟩ := List.cons.inj h
          have hid : n.id = m.id := congrArg Prod.fst hh
          have hpar : n.parents = m.parents := congrArg Prod.snd hh
          show childrenOf (n :: t) x = childrenOf (m :: u) x
          rw [show (n :: t) = [n] ++ t from rfl, show (m :: u) = [m] ++ u from rfl,
            childrenOf_append, childrenOf_append, childrenOf_singleton, childrenOf_singleton,
            hid, hpar, ih ht]

theorem mem_parentsOf {ns : List Node} {n : Node} {i p : String}
    (hn : n ∈ ns) (hid : n.id = i) (hp : p ∈ n.parents) : p ∈ parentsOf ns i := by
  rw [parentsOf, List.mem_flatMap]
  exact ⟨n, hn, by simp [hid, hp]⟩

theorem parentsOf_sub {ns : List Node} {i p : String} (h : p ∈ parentsOf ns i) :
    p ∈ ns.flatMap (fun n => n.parents) := by
  rw [parentsOf, List.mem_flatMap] at h
  obtain ⟨n, hn, hp⟩ := h
  rw [List.mem_flatMap]
  refine ⟨n, hn, ?_⟩
  by_cases hid : (n.id == i) = true
  · simpa [hid] using hp
  · rw [if_neg hid] at hp
    cases hp

theorem descFold_congrW (lookA lookB : String → Option Node) (F G : String → Option Int) :
    ∀ (l : List String),
      (∀ cid ∈ l, (lookA cid).map (fun n => n.weight) = (lookB cid).map (fun n => n.weight)) →
      (∀ cid ∈ l, F cid = G cid) →
      ∀ o : Option Int, l.foldl (descStep lookA F) o = l.foldl (descStep lookB G) o := by
  intro l
  induction l with
  | nil => intro _ _ _; rfl
  | cons cid rest ih =>
      intro h1 h2 o
      rw [List.foldl_cons, List.foldl_cons]
      have hstep : descStep lookA F o cid = descStep lookB G o cid := by
        unfold descStep
        cases o with
        | none => rfl
        | some a =>
            have hw := h1 cid (List.mem_cons_self cid rest)
            cases hA : lookA cid with
            | none =>
                cases hB : lookB cid with
                | none => rfl
                | some c => rw [hA, hB] at hw; simp at hw
            | some c =>
                cases hB : lookB cid with
                | none => rw [hA, hB] at hw; simp at hw
                | some c2 =>
                    rw [hA, hB] at hw
                    simp only [Option.map_some'] at hw
                    have hweq : c.weight = c2.weight := Option.some.inj hw
                    rw [Option.some_bind, Option.some_bind]
                    simp [hweq, h2 cid (List.mem_cons_self cid rest)]
      rw [hstep]
      exact ih (fun c hc => h1 c (List.mem_cons_of_mem cid hc))
        (fun c hc => h2 c (List.mem_cons_of_mem cid hc)) _

theorem descWeightD_congrW (lookA lookB : String → Option Node)
    (chA chB : String → List String)
    (hch : ∀ y, chA y = chB y)
    (hlook : ∀ y, (lookA y).map (fun n => n.weight) = (lookB y).map (fun n => n.weight)) :
    ∀ f x, descWeightD lookA chA f x = descWeightD lookB chB f x := by
  intro f
  induction f with
  | zero => intro x; rfl
  | succ f ih =>
      intro x
      rw [descWeightD_succ_fold, descWeightD_succ_fold, hch x]
      exact descFold_congrW lookA lookB _ _ (chB x) (fun c _ => hlook c) (fun c _ => ih c)
        (some 0)

/-! ### Weight-increment lemmas -/

theorem putNode_sfields {s : List Node} {q m : Node} (hnd : NodupIds s)
    (hm : getNode s q.id = some m) (hsf : sfields q = sfields m) :
    (putNode s q).map sfields = s.map sfields := by
  rw [putNode_found (getNode_isSome_any hm), List.map_map]
  apply List.map_congr_left
  intro e he
  by_cases hid : e.id = q.id
  · have hem : e = m :=
      nodupIds_id_unique hnd he (getNode_mem hm) (by rw [hid, getNode_id hm])
    subst hem
    simp [Function.comp, hid, hsf]
  · simp [Function.comp, hid]

theorem putNode_cum_pointwise {s : List Node} {pid : String} {p : Node}
    (hm : getNode s pid = some p) (x : String) :
    (getNode (putNode s { p with weight := p.weight + 1 }) x).map
        (fun n => n.cumulativeWeight) =
      (getNode s x).map (fun n => n.cumulativeWeight) := by
  have hpid : p.id = pid := getNode_id hm
  by_cases hx : x = pid
  · subst hx
    have hq : getNode s ({ p with weight := p.weight + 1 } : Node).id = some p := by
      show getNode s p.id = some p
      rw [hpid]; exact hm
    rw [show getNode (putNode s { p with weight := p.weight + 1 }) x =
        some { p with weight := p.weight + 1 } from by
      have := putNode_getNode_self hq
      simpa [hpid] using this]
    rw [hm]
    rfl
  · rw [putNode_getNode_other (by simpa [hpid] using hx)]

theorem incrementParents_cons (s : List Node) (pid : String) (rest : List String) :
    incrementParents s (pid :: rest) =
      incrementParents
        (match getNode s pid with
         | none => s
         | some p => putNode s { p with weight := p.weight + 1 }) rest := rfl

theorem incrementParents_sfields :
    ∀ (P : List String) (s : List Node), NodupIds s →
      (incrementParents s P).map sfields = s.map sfields := by
  intro P
  induction P with
  | nil => intro s _; rfl
  | cons pid rest ih =>
      intro s hnd
      rw [incrementParents_cons]
      cases hg : getNode s pid with
      | none => exact ih s hnd
      | some p =>
          have hq : getNode s ({ p with weight := p.weight + 1 } : Node).id = some p := by
            show getNode s p.id = some p
            rw [getNode_id hg]; exact hg
          have hsf : (putNode s { p with weight := p.weight + 1 }).map sfields =
              s.map sfields := putNode_sfields hnd hq rfl
          have hnd' : NodupIds (putNode s { p with weight := p.weight + 1 }) := by
            rw [NodupIds, ids_of_sfields hsf]
            exact hnd
          rw [ih _ hnd', hsf]

theorem incrementParents_getNode_other :
    ∀ (P : List String) (s : List Node) (x : String), x ∉ P →
      getNode (incrementParents s P) x = getNode s x := by
  intro P
  induction P with
  | nil => intro s x _; rfl
  | cons pid rest ih =>
      intro s x hx
      rw [incrementParents_cons]
      cases hg : getNode s pid with
      | none => exact ih s x (fun hc => hx (List.mem_cons_of_mem pid hc))
      | some p =>
          rw [ih _ x (fun hc => hx (List.mem_cons_of_mem pid hc))]
          apply putNode_getNode_other
          have hqid : ({ p with weight := p.weight + 1 } : Node).id = pid := by
            show p.id = pid
            exact getNode_id hg
          rw [hqid]
          exact fun hc => hx (hc ▸ List.mem_cons_self pid rest)

theorem incrementParents_cum :
    ∀ (P : List String) (s : List Node) (x : String),
      (getNode (incrementParents s P) x).map (fun n => n.cumulativeWeight) =
        (getNode s x).map (fun n => n.cumulativeWeight) := by
  intro P
  induction P with
  | nil => intro s x; rfl
  | cons pid rest ih =>
      intro s x
      rw [incrementParents_cons]
      cases hg : getNode s pid with
      | none => exact ih s x
      | some p => rw [ih _ x, putNode_cum_pointwise hg x]

/-! ### Facts about the freshly appended record -/

theorem nodupIds_append_fresh {s : List Node} {q : Node} (hnd : NodupIds s)
    (h : getNode s q.id = none) : NodupIds (s ++ [q]) := by
  rw [NodupIds, List.map_append]
  refine List.Nodup.append hnd (List.nodup_singleton _) ?_
  intro a ha hb
  have haq : a = q.id := by simpa using hb
  obtain ⟨m, hm, hmi⟩ := List.mem_map.mp ha
  exact (getNode_eq_none_iff.mp h m hm) (by rw [hmi, haq])

/-! ### The recomputation pass -/

theorem putNode_wfields {s : List Node} {q m : Node} (hnd : NodupIds s)
    (hm : getNode s q.id = some m) (hwf : wfields q = wfields m) :
    (putNode s q).map wfields = s.map wfields := by
  rw [putNode_found (getNode_isSome_any hm), List.map_map]
  apply List.map_congr_left
  intro e he
  by_cases hid : e.id = q.id
  · have hem : e = m :=
      nodupIds_id_unique hnd he (getNode_mem hm) (by rw [hid, getNode_id hm])
    subst hem
    simp [Function.comp, hid, hwf]
  · simp [Function.comp, hid]

theorem recomputeAll_cons (ch : String → List String) (nid : String) (rest : List String)
    (acc : List Node) :
    recomputeAll ch (nid :: rest) acc =
      match updateCumulative ch acc nid with
      | none => (acc, false)
      | some acc1 => recomputeAll ch rest acc1 := rfl

theorem recomputeAll_true_spec (ch : String → List String) :
    ∀ (ids : List String) (acc out : List Node), NodupIds acc →
      recomputeAll ch ids acc = (out, true) →
      (out.map wfields = acc.map wfields) ∧
      (∀ x, x ∉ ids → getNode out x = getNode acc x) ∧
      (∀ x ∈ ids, ∀ n, getNode acc x = some n →
        ∃ d, descWeightD (getNode acc) ch (acc.length + 1) x = some d ∧
          getNode out x = some { n with cumulativeWeight := n.weight + d }) ∧
      (∀ x ∈ ids, getNode acc x = none → getNode out x = none) := by
  intro ids
  induction ids with
  | nil =>
      intro acc out _ h
      have hout : acc = out := congrArg Prod.fst h
      subst hout
      exact ⟨rfl, fun _ _ => rfl, fun x hx => absurd hx (List.not_mem_nil x),
        fun x hx => absurd hx (List.not_mem_nil x)⟩
  | cons nid rest ih =>
      intro acc out hnd h
      rw [recomputeAll_cons] at h
      cases hg : getNode acc nid with
      | none =>
          have hstep : updateCumulative ch acc nid = some acc := by
            rw [updateCumulative, hg]
          rw [hstep] at h
          obtain ⟨hw, hother, hspec, hnone⟩ := ih acc out hnd h
          refine ⟨hw, ?_, ?_, ?_⟩
          · intro x hx
            exact hother x (fun hc => hx (List.mem_cons_of_mem nid hc))
          · intro x hx n hn
            by_cases hxn : x = nid
            · subst hxn; rw [hg] at hn; cases hn
            · rcases List.mem_cons.mp hx with rfl | hxr
              · exact absurd rfl hxn
              · exact hspec x hxr n hn
          · intro x hx hn
            by_cases hxr : x ∈ rest
            · exact hnone x hxr hn
            · rw [hother x hxr]; exact hn
      | some n =>
          cases hd : descWeightD (getNode acc) ch (acc.length + 1) nid with
          | none =>
              have hstep : updateCumulative ch acc nid = none := by
                rw [updateCumulative, hg, hd]
              rw [hstep] at h
              exact absurd (congrArg Prod.snd h) (by simp)
          | some d =>
              have hnid : n.id = nid := getNode_id hg
              have hqid : ({ n with cumulativeWeight := n.weight + d } : Node).id = nid := by
                show n.id = nid; exact hnid
              have hgq : getNode acc ({ n with cumulativeWeight := n.weight + d } : Node).id =
                  some n := by rw [hqid]; exact hg
              have hstep : updateCumulative ch acc nid =
                  some (putNode acc { n with cumulativeWeight := n.weight + d }) := by
                rw [updateCumulative, hg, hd]
              rw [hstep] at h
              have hw1 : (putNode acc { n with cumulativeWeight := n.weight + d }).map wfields =
                  acc.map wfields := putNode_wfields hnd hgq rfl
              have hnd1 : NodupIds (putNode acc { n with cumulativeWeight := n.weight + d }) := by
                rw [NodupIds, ids_of_sfields (map_sfields_of_wfields hw1)]
                exact hnd
              have hlen1 : (putNode acc { n with cumulativeWeight := n.weight + d }).length =
                  acc.length := length_of_wfields hw1
              have hcongr : ∀ f x,
                  descWeightD (getNode (putNode acc { n with cumulativeWeight := n.weight + d }))
                    ch f x = descWeightD (getNode acc) ch f x :=
                descWeightD_congrW _ _ ch ch (fun _ => rfl) (getNode_weight_of_wfields hw1)
              have hself : getNode (putNode acc { n with cumulativeWeight := n.weight + d }) nid =
                  some { n with cumulativeWeight := n.weight + d } := by
                rw [← hnid]
                exact putNode_getNode_self hgq
              have hoth : ∀ x, x ≠ nid →
                  getNode (putNode acc { n with cumulativeWeight := n.weight + d }) x =
                    getNode acc x := by
                intro x hx
                exact putNode_getNode_other (by rw [hqid]; exact hx)
              obtain ⟨ihw, ihother, ihspec, ihnone⟩ := ih _ out hnd1 h
              refine ⟨ihw.trans hw1, ?_, ?_, ?_⟩
              · intro x hx
                rw [ihother x (fun hc => hx (List.mem_cons_of_mem nid hc)),
                  hoth x (fun hc => hx (hc ▸ List.mem_cons_self nid rest))]
              · intro x hx m hm
                by_cases hxn : x = nid
                · rw [hxn] at hm ⊢
                  have hmn : m = n := by rw [hg] at hm; exact (Option.some.inj hm).symm
                  subst hmn
                  refine ⟨d, hd, ?_⟩
                  by_cases hxr : nid ∈ rest
                  · obtain ⟨d2, hd2, hout2⟩ := ihspec nid hxr _ hself
                    have hd2' : d2 = d := by
                      rw [hcongr, hlen1, hd] at hd2
                      exact (Option.some.inj hd2).symm
                    subst hd2'
                    rw [hout2]
                  · rw [ihother nid hxr, hself]
                · rcases List.mem_cons.mp hx with rfl | hxr
                  · exact absurd rfl hxn
                  · have hm1 : getNode (putNode acc { n with cumulativeWeight := n.weight + d }) x =
                        some m := by rw [hoth x hxn]; exact hm
                    obtain ⟨d2, hd2, hout2⟩ := ihspec x hxr m hm1
                    rw [hcongr, hlen1] at hd2
                    exact ⟨d2, hd2, hout2⟩
              · intro x hx hn
                have hxn : x ≠ nid := by
                  intro hc; subst hc; rw [hg] at hn; cases hn
                rcases List.mem_cons.mp hx with rfl | hxr
                · exact absurd rfl hxn
                · exact ihnone x hxr (by rw [hoth x hxn]; exact hn)

/-! ### The affected-set DFS: monotonicity, closure, completeness -/

theorem markAff_mono (pm : String → List String) :
    ∀ (fuel : Nat) (nid : String) (aff : List String) {x : String}, x ∈ aff →
      x ∈ markAff pm fuel nid aff := by
  intro fuel
  induction fuel with
  | zero => intro nid aff x hx; exact hx
  | succ fuel ih =>
      intro nid aff x hx
      rw [markAff_succ]
      by_cases hc : aff.contains nid = true
      · rw [if_pos hc]; exact hx
      · rw [if_neg hc]
        have hfold : ∀ (l : List String) (acc : List String), x ∈ acc →
            x ∈ l.foldl (fun a p => markAff pm fuel p a) acc := by
          intro l
          induction l with
          | nil => intro acc h; exact h
          | cons p rest ihl =>
              intro acc h
              rw [List.foldl_cons]
              exact ihl _ (ih p acc h)
        exact hfold _ _ (List.mem_cons_of_mem nid hx)

theorem markAff_closure (pm : String → List String) (U : Finset String)
    (hU : ∀ x p, p ∈ pm x → p ∈ U) :
    ∀ (fuel : Nat) (nid : String) (aff : List String) (pend : Finset String),
      nid ∈ U →
      ClosedMod pm pend aff →
      (U \ aff.toFinset).card + 1 ≤ fuel →
      nid ∈ markAff pm fuel nid aff ∧ ClosedMod pm pend (markAff pm fuel nid aff) := by
  intro fuel
  induction fuel with
  | zero => intro nid aff pend _ _ hcard; omega
  | succ fuel ih =>
      intro nid aff pend hnidU hcl hcard
      rw [markAff_succ]
      by_cases hc : aff.contains nid = true
      · rw [if_pos hc]
        exact ⟨by simpa using hc, hcl⟩
      · rw [if_neg hc]
        have hnidaff : nid ∉ aff := fun h => hc (by simpa using h)
        have hnidF : nid ∈ U \ aff.toFinset :=
          Finset.mem_sdiff.mpr ⟨hnidU, fun h => hnidaff (List.mem_toFinset.mp h)⟩
        have hcard0 : (U \ (nid :: aff).toFinset).card + 1 ≤ fuel := by
          rw [List.toFinset_cons, Finset.sdiff_insert, Finset.card_erase_of_mem hnidF]
          have hpos : 0 < (U \ aff.toFinset).card := Finset.card_pos.mpr ⟨nid, hnidF⟩
          omega
        have hcl0 : ClosedMod pm (insert nid pend) (nid :: aff) := by
          intro a ha hap p hp
          rcases List.mem_cons.mp ha with rfl | hat
          · exact absurd (Finset.mem_insert_self a pend) hap
          · exact List.mem_cons_of_mem nid
              (hcl a hat (fun hc2 => hap (Finset.mem_insert_of_mem hc2)) p hp)
        have hfold : ∀ (l : List String) (acc : List String),
            (∀ p ∈ l, p ∈ U) →
            ClosedMod pm (insert nid pend) acc →
            (U \ acc.toFinset).card + 1 ≤ fuel →
            (∀ p ∈ l, p ∈ l.foldl (fun a p => markAff pm fuel p a) acc) ∧
            ClosedMod pm (insert nid pend) (l.foldl (fun a p => markAff pm fuel p a) acc) ∧
            (∀ x ∈ acc, x ∈ l.foldl (fun a p => markAff pm fuel p a) acc) := by
          intro l
          induction l with
          | nil => intro acc _ hcl1 _; exact ⟨fun p hp => absurd hp (List.not_mem_nil p),
              hcl1, fun x hx => hx⟩
          | cons p rest ihl =>
              intro acc hlU hcl1 hcard1
              rw [List.foldl_cons]
              obtain ⟨hpin, hclp⟩ := ih p acc (insert nid pend)
                (hlU p (List.mem_cons_self p rest)) hcl1 hcard1
              have hsub : acc.toFinset ⊆ (markAff pm fuel p acc).toFinset := by
                intro x hx
                exact List.mem_toFinset.mpr (markAff_mono pm fuel p acc (List.mem_toFinset.mp hx))
              have hcard2 : (U \ (markAff pm fuel p acc).toFinset).card + 1 ≤ fuel := by
                have := Finset.card_le_card
                  (Finset.sdiff_subset_sdiff (Finset.Subset.refl U) hsub)
                omega
              obtain ⟨hrest, hclres, hmonres⟩ := ihl (markAff pm fuel p acc)
                (fun q hq => hlU q (List.mem_cons_of_mem p hq)) hclp hcard2
              refine ⟨?_, hclres, ?_⟩
              · intro q hq
                rcases List.mem_cons.mp hq with rfl | hqr
                · exact hmonres q hpin
                · exact hrest q hqr
              · intro x hx
                exact hmonres x (markAff_mono pm fuel p acc hx)
        obtain ⟨hpmr, hclr, hmonr⟩ := hfold (pm nid) (nid :: aff)
          (fun p hp => hU nid p hp) hcl0 hcard0
        refine ⟨hmonr nid (List.mem_cons_self nid aff), ?_⟩
        intro a ha hap p hp
        by_cases han : a = nid
        · subst han
          exact hpmr p hp
        · exact hclr a ha (by simp [hap, han]) p hp

theorem foldl_markAff_spec (pm : String → List String) (U : Finset String)
    (hU : ∀ x p, p ∈ pm x → p ∈ U) (FUEL : Nat) (hF : U.card + 1 ≤ FUEL) :
    ∀ (P : List String) (acc : List String), (∀ p ∈ P, p ∈ U) → ClosedMod pm ∅ acc →
      (∀ p ∈ P, p ∈ P.foldl (fun aff pid => markAff pm FUEL pid aff) acc) ∧
      ClosedMod pm ∅ (P.foldl (fun aff pid => markAff pm FUEL pid aff) acc) := by
  intro P
  induction P with
  | nil => intro acc _ hcl; exact ⟨fun p hp => absurd hp (List.not_mem_nil p), hcl⟩
  | cons pid rest ih =>
      intro acc hPU hcl
      rw [List.foldl_cons]
      have hcard : (U \ acc.toFinset).card + 1 ≤ FUEL := by
        have := Finset.card_le_card (Finset.sdiff_subset (s := U) (t := acc.toFinset))
        omega
      obtain ⟨hpin, hclp⟩ := markAff_closure pm U hU FUEL pid acc ∅
        (hPU pid (List.mem_cons_self pid rest)) hcl hcard
      obtain ⟨hrest, hclres⟩ := ih (markAff pm FUEL pid acc)
        (fun q hq => hPU q (List.mem_cons_of_mem pid hq)) hclp
      refine ⟨?_, hclres⟩
      intro p hp
      rcases List.mem_cons.mp hp with rfl | hpr
      · -- p survives the rest of the fold by monotonicity
        have hmon : ∀ (l : List String) (a0 : List String) {x : String}, x ∈ a0 →
            x ∈ l.foldl (fun aff pid => markAff pm FUEL pid aff) a0 := by
          intro l
          induction l with
          | nil => intro a0 x hx; exact hx
          | cons q qs ihq =>
              intro a0 x hx
              rw [List.foldl_cons]
              exact ihq _ (markAff_mono pm FUEL q a0 hx)
        exact hmon rest _ hpin
      · exact hrest p hpr

theorem closedMod_reach {pm : String → List String} {aff : List String}
    (hcl : ClosedMod pm ∅ aff) {p x : String} (hp : p ∈ aff) (hr : PmReach pm p x) :
    x ∈ aff := by
  induction hr with
  | refl => exact hp
  | tail _ hmem ih => exact hcl _ ih (Finset.not_mem_empty _) _ hmem

theorem chPath_pmReach {ns : List Node} {a b : String}
    (h : ChPath (childrenOf ns) a b) : PmReach (parentsOf ns) b a := by
  induction h with
  | single hedge =>
      obtain ⟨n, hn, rfl, hp⟩ := mem_childrenOf.mp hedge
      exact PmReach.tail (PmReach.refl _) (mem_parentsOf hn rfl hp)
  | cons hedge _ ih =>
      obtain ⟨n, hn, rfl, hp⟩ := mem_childrenOf.mp hedge
      exact PmReach.tail ih (mem_parentsOf hn rfl hp)

/-! ### Paths around a freshly appended record -/

theorem childrenOf_eq_nil {ns : List Node} {x : String}
    (hno : ∀ n ∈ ns, x ∉ n.parents) : childrenOf ns x = [] := by
  rw [List.eq_nil_iff_forall_not_mem]
  intro y hy
  obtain ⟨n, hn, _, hx⟩ := mem_childrenOf.mp hy
  exact hno n hn hx

theorem chPath_no_out {ch : String → List String} {z b : String} (h : ch z = [])
    (hp : ChPath ch z b) : False := by
  cases hp with
  | single he => rw [h] at he; cases he
  | cons he _ => rw [h] at he; cases he

theorem chPath_append_cases {s : List Node} {q : Node}
    (hnil : childrenOf s q.id = []) :
    ∀ {a b : String}, ChPath (childrenOf (s ++ [q])) a b →
      b = q.id ∨ ChPath (childrenOf s) a b := by
  intro a b h
  induction h with
  | @single a b he =>
      rw [childrenOf_append] at he
      rcases List.mem_append.mp he with hl | hr
      · exact Or.inr (ChPath.single hl)
      · rw [childrenOf_singleton] at hr
        obtain ⟨_, _, hb⟩ := List.mem_map.mp hr
        exact Or.inl hb.symm
  | @cons a m b he _ ih =>
      rcases ih with rfl | hp
      · exact Or.inl rfl
      · rw [childrenOf_append] at he
        rcases List.mem_append.mp he with hl | hr
        · exact Or.inr (ChPath.cons hl hp)
        · rw [childrenOf_singleton] at hr
          obtain ⟨_, _, hb⟩ := List.mem_map.mp hr
          exact absurd hp (fun hp2 => chPath_no_out hnil (hb ▸ hp2))

theorem acyclic_append_fresh {s : List Node} {q : Node} (hac : Acyclic s)
    (hnil : childrenOf s q.id = []) (hself : q.id ∉ q.parents) :
    Acyclic (s ++ [q]) := by
  intro x hx
  have hqnil : childrenOf (s ++ [q]) q.id = [] := by
    rw [childrenOf_append, hnil, childrenOf_singleton]
    have : q.parents.filter (fun p => p == q.id) = [] := by
      rw [List.filter_eq_nil_iff]
      intro a ha
      simp only [beq_iff_eq]
      intro hax
      exact hself (hax ▸ ha)
    rw [this]
    rfl
  by_cases hxq : x = q.id
  · exact chPath_no_out (hxq ▸ hqnil) hx
  · rcases chPath_append_cases hnil hx with hq | hp
    · exact hxq hq
    · exact hac x hp

/-- An edge into the freshly appended record can only come from one of its
declared parents. -/
theorem edge_into_fresh {s : List Node} {q : Node} {u : String}
    (hfresh : getNode s q.id = none)
    (he : q.id ∈ childrenOf (s ++ [q]) u) : u ∈ q.parents := by
  obtain ⟨n, hn, hid, hu⟩ := mem_childrenOf.mp he
  rcases List.mem_append.mp hn with hns | hnq
  · exact absurd hid (getNode_eq_none_iff.mp hfresh n hns)
  · have : n = q := by simpa using hnq
    exact this ▸ hu

/-- A path into the freshly appended record passes through one of its
declared parents. -/
theorem chPath_into_fresh {s : List Node} {q : Node}
    (hfresh : getNode s q.id = none) :
    ∀ {a : String}, ChPath (childrenOf (s ++ [q])) a q.id →
      ∃ u ∈ q.parents, a = u ∨ ChPath (childrenOf (s ++ [q])) a u := by
  intro a h
  generalize hb : q.id = b at h
  revert hb
  induction h with
  | @single a c he =>
      intro hb
      exact ⟨a, edge_into_fresh hfresh (hb ▸ he), Or.inl rfl⟩
  | @cons a m c he _ ih =>
      intro hb
      obtain ⟨u, hu, hcase⟩ := ih hb
      rcases hcase with hmu | hp
      · exact ⟨u, hu, Or.inr (ChPath.single (hmu ▸ he))⟩
      · exact ⟨u, hu, Or.inr (ChPath.cons he hp)⟩

/-- Outside the upward closure of the new record and its parents, the
descendant-weight recursion is unaffected by the approval. -/
theorem descWeightD_avoid (s : List Node) (q : Node) (s2 : List Node)
    (hs2other : ∀ x, x ∉ q.parents → getNode s2 x = getNode (s ++ [q]) x) :
    ∀ (f : Nat) (x : String),
      (∀ y, (y = x ∨ ChPath (childrenOf (s ++ [q])) x y) → y ∉ q.parents ∧ y ≠ q.id) →
      descWeightD (getNode s2) (childrenOf (s ++ [q])) f x =
        descWeightD (getNode s) (childrenOf s) f x := by
  intro f
  induction f with
  | zero => intro x _; rfl
  | succ f ih =>
      intro x hav
      have hxP : x ∉ q.parents ∧ x ≠ q.id := hav x (Or.inl rfl)
      have hchx : childrenOf (s ++ [q]) x = childrenOf s x := by
        rw [childrenOf_append, childrenOf_singleton]
        have hf : q.parents.filter (fun p => p == x) = [] := by
          rw [List.filter_eq_nil_iff]
          intro a ha
          simp only [beq_iff_eq]
          intro hax
          exact hxP.1 (hax ▸ ha)
        rw [hf]
        simp
      rw [descWeightD_succ_fold, descWeightD_succ_fold, hchx]
      refine descFold_congrW _ _ _ _ (childrenOf s x) (fun cid hcid => ?_)
        (fun cid hcid => ?_) (some 0)
      · have hedge : cid ∈ childrenOf (s ++ [q]) x := by rw [hchx]; exact hcid
        have hcidav := hav cid (Or.inr (ChPath.single hedge))
        rw [hs2other cid hcidav.1, getNode_append_other hcidav.2]
      · apply ih
        intro y hy
        apply hav
        right
        have hedge : cid ∈ childrenOf (s ++ [q]) x := by rw [hchx]; exact hcid
        rcases hy with rfl | hpath
        · exact ChPath.single hedge
        · exact ChPath.cons hedge hpath

/-! ### Claim C3: the cumulative-weight bookkeeping invariant -/

theorem propagateWeights_eq (s : List Node) (pids : List String) :
    propagateWeights s pids =
      recomputeAll (childrenOf s)
        (pids.foldl (fun aff pid => markAff (parentsOf s) (affFuel s pids) pid aff) [])
        (incrementParents s pids) := by
  cases pids with
  | nil => rfl
  | cons p rest => rfl

/-- Core preservation argument: a completed weight propagation for a fresh,
unreferenced record with zero weight and zero cumulative weight, starting
from a store satisfying the bookkeeping invariant, yields a store that
satisfies it again. -/
theorem cumInv_preserved_by_propagate (s : List Node) (q : Node) (s' : List Node)
    (hnd : NodupIds s) (hpc : ParentsClosed s) (hac : Acyclic s)
    (hinv : cumInvB s = true) (hfresh : getNode s q.id = none)
    (hwz : q.weight = 0) (hcz : q.cumulativeWeight = 0) (hself : q.id ∉ q.parents)
    (hprop : propagateWeights (s ++ [q]) q.parents = (s', true)) :
    cumInvB s' = true := by
  have hnd1 : NodupIds (s ++ [q]) := nodupIds_append_fresh hnd hfresh
  have hnoref : ∀ n ∈ s, q.id ∉ n.parents := by
    intro n hn hp
    have := hpc n hn q.id hp
    rw [hfresh] at this
    cases this
  have hchSnil : childrenOf s q.id = [] := childrenOf_eq_nil hnoref
  have hch1nil : childrenOf (s ++ [q]) q.id = [] := by
    rw [childrenOf_append, hchSnil, childrenOf_singleton]
    have hf : q.parents.filter (fun p => p == q.id) = [] := by
      rw [List.filter_eq_nil_iff]
      intro a ha
      simp only [beq_iff_eq]
      intro hax
      exact hself (hax ▸ ha)
    rw [hf]
    rfl
  rw [propagateWeights_eq] at hprop
  have hs2sf : (incrementParents (s ++ [q]) q.parents).map sfields = (s ++ [q]).map sfields :=
    incrementParents_sfields q.parents (s ++ [q]) hnd1
  have hnd2 : NodupIds (incrementParents (s ++ [q]) q.parents) := by
    rw [NodupIds, ids_of_sfields hs2sf]
    exact hnd1
  obtain ⟨hw, hother, hspec, hnone⟩ := recomputeAll_true_spec _ _ _ s' hnd2 hprop
  have hnd' : NodupIds s' := by
    rw [NodupIds, ids_of_sfields (map_sfields_of_wfields hw)]
    exact hnd2
  have hlen2 : (incrementParents (s ++ [q]) q.parents).length = (s ++ [q]).length := by
    simpa using congrArg List.length hs2sf
  have hlen' : s'.length = (incrementParents (s ++ [q]) q.parents).length :=
    length_of_wfields hw
  have hlenAll : s'.length = s.length + 1 := by
    rw [hlen', hlen2]
    simp
  have hchs' : ∀ x, childrenOf s' x = childrenOf (s ++ [q]) x := fun x =>
    childrenOf_of_sfields ((map_sfields_of_wfields hw).trans hs2sf) x
  have hdescS' : ∀ f x, descWeightD (getNode s') (childrenOf s') f x =
      descWeightD (getNode (incrementParents (s ++ [q]) q.parents))
        (childrenOf (s ++ [q])) f x :=
    descWeightD_congrW _ _ _ _ hchs' (getNode_weight_of_wfields hw)
  have hU : ∀ x p, p ∈ parentsOf (s ++ [q]) x →
      p ∈ (q.parents ++ (s ++ [q]).flatMap (fun n => n.parents)).toFinset := by
    intro x p hp
    exact List.mem_toFinset.mpr (List.mem_append.mpr (Or.inr (parentsOf_sub hp)))
  have hFuel : (q.parents ++ (s ++ [q]).flatMap (fun n => n.parents)).toFinset.card + 1 ≤
      affFuel (s ++ [q]) q.parents := by
    have := List.toFinset_card_le (q.parents ++ (s ++ [q]).flatMap (fun n => n.parents))
    rw [affFuel]
    omega
  have hPU : ∀ p ∈ q.parents,
      p ∈ (q.parents ++ (s ++ [q]).flatMap (fun n => n.parents)).toFinset := by
    intro p hp
    exact List.mem_toFinset.mpr (List.mem_append.mpr (Or.inl hp))
  obtain ⟨hPaff, hclaff⟩ := foldl_markAff_spec (parentsOf (s ++ [q])) _ hU
    (affFuel (s ++ [q]) q.parents) hFuel q.parents [] hPU
    (fun a ha => absurd ha (List.not_mem_nil a))
  have hreach_aff : ∀ x u, u ∈ q.parents →
      (x = u ∨ ChPath (childrenOf (s ++ [q])) x u) →
      x ∈ q.parents.foldl
        (fun aff pid => markAff (parentsOf (s ++ [q])) (affFuel (s ++ [q]) q.parents) pid aff)
        [] := by
    intro x u hu hre
    rcases hre with rfl | hpath
    · exact hPaff x hu
    · exact closedMod_reach hclaff (hPaff u hu) (chPath_pmReach hpath)
  rw [cumInvB, List.all_eq_true]
  intro r hr
  have hrget : getNode s' r.id = some r := mem_getNode_self hnd' hr
  by_cases hxaff : r.id ∈ q.parents.foldl
      (fun aff pid => markAff (parentsOf (s ++ [q])) (affFuel (s ++ [q]) q.parents) pid aff) []
  · cases hg2 : getNode (incrementParents (s ++ [q]) q.parents) r.id with
    | none =>
        rw [hnone r.id hxaff hg2] at hrget
        cases hrget
    | some n2 =>
        obtain ⟨d, hd, hout⟩ := hspec r.id hxaff n2 hg2
        rw [hout] at hrget
        have hreq : r = { n2 with cumulativeWeight := n2.weight + d } :=
          (Option.some.inj hrget).symm
        rw [hdescS', hlen', hd, hreq]
        simp
  · by_cases hxq : r.id = q.id
    · have hg1 : getNode (s ++ [q]) q.id = some q := getNode_append_self hfresh
      have hg2 : getNode (incrementParents (s ++ [q]) q.parents) q.id = some q := by
        rw [incrementParents_getNode_other q.parents (s ++ [q]) q.id hself]
        exact hg1
      have h0 := hother r.id hxaff
      rw [hxq] at h0 hrget
      have hrq : r = q := Option.some.inj (hrget.symm.trans (h0.trans hg2))
      have hzero : descWeightD (getNode (incrementParents (s ++ [q]) q.parents))
          (childrenOf (s ++ [q])) (s'.length + 1) q.id = some 0 := by
        rw [descWeightD_succ_fold, hch1nil]
        rfl
      rw [hdescS', hxq, hzero, hrq]
      simp [hwz, hcz]
    · have hxnotP : r.id ∉ q.parents := fun hmem => hxaff (hPaff r.id hmem)
      have h0 := hother r.id hxaff
      have h1 : getNode (incrementParents (s ++ [q]) q.parents) r.id =
          getNode (s ++ [q]) r.id :=
        incrementParents_getNode_other q.parents (s ++ [q]) r.id hxnotP
      have h2 : getNode (s ++ [q]) r.id = getNode s r.id := getNode_append_other hxq
      have hrs : getNode s r.id = some r := by
        rw [← h2, ← h1, ← h0]
        exact hrget
      have hrmem : r ∈ s := getNode_mem hrs
      have hinv' := List.all_eq_true.mp (by rw [cumInvB] at hinv; exact hinv) r hrmem

      cases hd0 : descWeightD (getNode s) (childrenOf s) (s.length + 1) r.id with
      | none => rw [hd0] at hinv'; cases hinv'
      | some d0 =>
          rw [hd0] at hinv'
          have hav : ∀ y, (y = r.id ∨ ChPath (childrenOf (s ++ [q])) r.id y) →
              y ∉ q.parents ∧ y ≠ q.id := by
            intro y hy
            constructor
            · intro hyP
              refine hxaff (hreach_aff r.id y hyP ?_)
              rcases hy with rfl | hp
              · exact Or.inl rfl
              · exact Or.inr hp
            · intro hyq
              rcases hy with rfl | hp
              · exact hxq hyq
              · rw [hyq] at hp
                obtain ⟨u, hu, hcase⟩ := chPath_into_fresh hfresh hp
                exact hxaff (hreach_aff r.id u hu hcase)
          have he1 := descWeightD_avoid s q (incrementParents (s ++ [q]) q.parents)
            (fun x hx => incrementParents_getNode_other q.parents (s ++ [q]) x hx)
            (s'.length + 1) r.id hav
          have hdep := acyclic_depthLe hac r.id
          have he2 : descWeightD (getNode s) (childrenOf s) (s'.length + 1) r.id =
              descWeightD (getNode s) (childrenOf s) (s.length + 1) r.id :=
            (descWeightD_stable (getNode s) hdep (s'.length + 1) (s.length + 1)
              (by omega) (le_refl _)).1
          rw [hdescS', he1, he2, hd0]
          exact hinv'

/-- C3 (amended): after every successful — that is, terminating —
`ApproveNode` of a fresh candidate whose cumulative-weight field is 0, from
a prior store satisfying the structural invariants (unique ids, resolvable
parent references, acyclicity) and the engine's cumulative-weight
bookkeeping, every stored record again satisfies
`cumulative_weight(r) = weight(r) + Σ` over all child-edge *paths* from `r`
of the end weight — the path-multiplicity descendant sum the engine
actually computes, which counts a descendant once per distinct path rather
than once per distinct descendant; in particular the invariant holds for
the newly admitted record. -/
theorem C3_cumulative_pathSum_invariant (s : List Node) (node : Node) (now : Int)
    (s' : List Node)
    (hnd : NodupIds s) (hpc : ParentsClosed s) (hac : Acyclic s)
    (hinv : cumInvB s = true)
    (hfresh : getNode s node.id = none)
    (hcz : node.cumulativeWeight = 0)
    (hok : approveNode s node now = .ok s') :
    cumInvB s' = true := by
  unfold approveNode at hok
  cases hany : node.parents.any (fun pid => pid == node.id) with
  | true => rw [hany] at hok; simp at hok
  | false =>
  rw [hany] at hok
  simp only [Bool.false_eq_true, if_false] at hok
  cases hcyc : checkForCircularReferences s node.parents with
  | true => rw [hcyc] at hok; simp at hok
  | false =>
  rw [hcyc] at hok
  simp only [Bool.false_eq_true, if_false] at hok
  cases hfind : node.parents.find? (fun pid => (getNode s pid).isNone) with
  | some pid => rw [hfind] at hok; simp at hok
  | none =>
  rw [hfind] at hok

  have hself : node.id ∉ node.parents := by
    intro hmem
    have := List.any_eq_false.mp hany node.id hmem
    simp at this
  have hfreshq : getNode s ({ node with weight := 0, createdAt := now } : Node).id = none :=
    hfresh
  rw [putNode_fresh hfreshq] at hok
  cases hprop : propagateWeights (s ++ [{ node with weight := 0, createdAt := now }])
      node.parents with
  | mk s2 b =>
      rw [hprop] at hok
      cases b with
      | false => simp at hok
      | true =>
          have hs2 : s2 = s' := by simpa using hok
          subst hs2
          exact cumInv_preserved_by_propagate s { node with weight := 0, createdAt := now } s2
            hnd hpc hac hinv hfresh rfl hcz hself hprop

/-- Witness for C3 at a concrete input: approving record 2 on the singleton
store after admitting record 1 keeps the bookkeeping invariant. -/
theorem C3_witness : cumInvB pairStore = true :=
  C3_cumulative_pathSum_invariant [⟨"1", [], 0, 0, 1⟩] (cand "2" ["1"]) 2 pairStore
    (by unfold NodupIds; decide) (by unfold ParentsClosed; decide)
    (@acyclic_of_ranked [⟨"1", [], 0, 0, 1⟩] (fun _ => 0) (by decide))
    (by decide) (by decide) (by decide) (by decide)

/-- Counterexample to C3 as stated: in the diamond A←{B,C}←D the spec
formula (each distinct descendant counted once) agrees with the stored
values right up to the approval of E←D, whose propagation then stores
`cumulative_weight(A) = 6` while the per-descendant sum of the claim gives
`2 + 3 = 5` — the recomputation counts the weight of D once per path. -/
theorem C3_counterexample :
    ((addNode [] (cand "A" []) 1).okState.bind (fun s1 =>
      (approveNode s1 (cand "B" ["A"]) 2).okState.bind (fun s2 =>
        (approveNode s2 (cand "C" ["A"]) 3).okState.bind (fun s3 =>
          (approveNode s3 (cand "D" ["B", "C"]) 4).okState)))) = some diamondStore ∧
    specCumInvB diamondStore = true ∧
    (cand "E" ["D"]).cumulativeWeight = 0 ∧
    approveNode diamondStore (cand "E" ["D"]) 5 = .ok diamondStoreE ∧
    getNode diamondStoreE "A" = some ⟨"A", [], 2, 6, 1⟩ ∧
    (2 : Int) + specDescendantSum diamondStoreE "A" = 5 := by
  decide

end DagRte
